import Mathlib

/-!
Shallow embedding of the tab-grouper browser extension's background logic
(`src/background.js`).  The packed source contains two near-duplicate
revisions of the module; the definitions below follow the revision at lines
472-896 of the packed file (the one the reconciliation claims cite), and
definitions suffixed `V1` follow the earlier revision at lines 1-470 at the
points where the two revisions diverge (candidate filtering and the
existing-group match).  Machine integers are modelled as `Int` with explicit
wrapping to the signed 32-bit range; fallible operations return `Option`.
-/

namespace TabGrouper

/-- JavaScript `ToInt32`: wrap an integer to the signed 32-bit range
(the effect of `hash |= 0` and of the 32-bit `<<` shift). -/
def toInt32 (x : Int) : Int := (x + 2 ^ 31) % 2 ^ 32 - 2 ^ 31

/-- One step of `hashCode` (background.js lines 566-574):
`hash = (hash << 5) - hash + charCode`, where the shift is a 32-bit
operation and the result is coerced back to a signed 32-bit integer. -/
def hashStep (h : Int) (c : Nat) : Int := toInt32 (toInt32 (32 * h) - h + c)

/-- `hashCode(str)` (lines 566-574): polynomial rolling hash over the
character codes, accumulated as a signed 32-bit integer starting from 0. -/
def hashCode (s : String) : Int := s.data.foldl (fun h c => hashStep h c.toNat) 0

/-- The fixed 9-color palette (line 484). -/
def COLOR_PALETTE : List String :=
  ["grey", "blue", "red", "yellow", "green", "pink", "purple", "cyan", "orange"]

/-- `COLOR_PALETTE[Math.abs(hash) % COLOR_PALETTE.length]` (line 592). -/
def hashColor (n : String) : String :=
  COLOR_PALETTE.getD ((hashCode n).natAbs % COLOR_PALETTE.length) ""

/-- JavaScript truthiness of an optional string value:
`undefined`/`null` and the empty string are falsy. -/
def truthy (o : Option String) : Option String :=
  match o with
  | none => none
  | some s => if s = "" then none else some s

/-- `generateColor` (lines 576-598), with the memo cache threaded
explicitly: explicit override from storage when truthy, else the memoized
color, else a fresh hash-derived palette color which is memoized.  The
earlier revision (166-188) reads the cache through a TTL wrapper; an expired
entry behaves exactly like an absent one, which this model covers by
quantifying over cache states. -/
def generateColor (ov : String → Option String) (cache : String → Option String)
    (n : String) : String × (String → Option String) :=
  match truthy (ov n) with
  | some c => (c, cache)
  | none =>
    match truthy (cache n) with
    | some c => (c, cache)
    | none =>
      let c := hashColor n
      (c, fun m => if m = n then some c else cache m)

/-- The value `generateColor` returns, as a pure function of the override
table: the explicit override when truthy, else the hash-derived palette
color.  On any well-formed cache state `generateColor` returns exactly this
(theorem `c6_generate_color_deterministic`), which justifies using the pure
form inside the reconciliation pipeline. -/
def resolveColor (ov : String → Option String) (n : String) : String :=
  match truthy (ov n) with
  | some c => c
  | none => hashColor n

/-- A cache state is well formed when every memoized entry is the
hash-derived color of its key.  The empty cache is well formed, and both
`generateColor` and TTL expiry (which only removes entries) preserve it. -/
def goodCache (cache : String → Option String) : Prop :=
  ∀ n c, cache n = some c → c = hashColor n

/-- The character class `[a-zA-Z0-9]` of the split regex at line 845. -/
def isAlnum (c : Char) : Bool :=
  ('a' ≤ c && c ≤ 'z') || ('A' ≤ c && c ≤ 'Z') || ('0' ≤ c && c ≤ '9')

/-- JS `String.prototype.split` with a single-character-class regex, on the
character list: split at every character satisfying `sep`, keeping empty
segments.  `splitP p [] = [[]]`, matching `"".split(...) = [""]`. -/
def splitP (sep : Char → Bool) : List Char → List (List Char)
  | [] => [[]]
  | c :: rest =>
    match splitP sep rest with
    | [] => [[]]
    | w :: ws => if sep c then [] :: w :: ws else (c :: w) :: ws

/-- JS `String.prototype.trim` on the character list (whitespace model). -/
def trimL (cs : List Char) : List Char :=
  ((cs.dropWhile Char.isWhitespace).reverse.dropWhile Char.isWhitespace).reverse

/-- `groupName.trim().split(/[^a-zA-Z0-9]/).filter(Boolean)` (lines
843-846): the word list of a group name. -/
def wordsOf (n : String) : List (List Char) :=
  (splitP (fun c => !isAlnum c) (trimL n.data)).filter (fun w => !w.isEmpty)

/-- Model of the platform's `String.prototype.toUpperCase` on one
character (Unicode Default Case Conversion with special casing).  ASCII
characters map to their single uppercase form; the length-EXPANDING
special casing is modelled by its representative U+00DF `ß`, which
upper-cases to `SS`; the remaining characters are modelled by their simple
single-character uppercase mapping. -/
def jsUpperChar (c : Char) : List Char :=
  if c = 'ß' then ['S', 'S'] else [c.toUpper]

/-- `String.prototype.toUpperCase` over a character list: each character
maps to its (possibly multi-character) uppercase form, concatenated - so
the result can be longer than the input. -/
def jsUpperL (cs : List Char) : List Char := (cs.map jsUpperChar).flatten

/-- `abbreviate` (lines 842-848).  The accesses `words[0][0]` and
`words[1][0]` are modelled with a default character; the default is never
consulted because filtered words are nonempty (theorem
`c10_abbreviate_total_bounded`).  Both branches end in `.toUpperCase()`,
modelled by `jsUpperL`, whose output may exceed the input length. -/
def abbreviate (n : String) : String :=
  let words := wordsOf n
  if 1 < words.length then
    String.mk (jsUpperL [(words.getD 0 []).headD 'a', (words.getD 1 []).headD 'a'])
  else
    String.mk (jsUpperL (n.data.take 5))

/-- The title computation at line 826 (and 742): names of length at most 15
are displayed unchanged, longer names are abbreviated. -/
def formatTitle (n : String) : String :=
  if 15 < n.length then abbreviate n else n

/-- Split a character list at the first occurrence of the scheme separator
`://`; `none` when there is no such occurrence. -/
def splitSchemeSep : List Char → Option (List Char × List Char)
  | ':' :: '/' :: '/' :: rest => some ([], rest)
  | c :: rest =>
    match splitSchemeSep rest with
    | some (a, b) => some (c :: a, b)
    | none => none
  | [] => none

/-- Model of the host platform's URL parser (`new URL(url).hostname`),
restricted to what `getDomain` consumes: an input parses when it has the
shape `scheme "://" host ...` with a nonempty alphabetic scheme; the
hostname is the part after `://` up to the first `/`, `:`, `?` or `#`,
lower-cased.  Inputs without a scheme separator (such as `"not a url"`)
fail with `none`, modelling the TypeError that `getDomain` catches. -/
def urlHostname (url : String) : Option String :=
  match splitSchemeSep url.data with
  | none => none
  | some (scheme, rest) =>
    if !scheme.isEmpty && scheme.all (fun c => c.isAlpha) then
      some ⟨(rest.takeWhile (fun c => !(c = '/' || c = ':' || c = '?' || c = '#'))).map Char.toLower⟩
    else none

/-- `hostname.replace(/^www\./, "")` (line 496): strip one leading `www.`. -/
def stripWWWL (cs : List Char) : List Char :=
  if cs.take 4 = ['w', 'w', 'w', '.'] then cs.drop 4 else cs

/-- `.join(".")` over the label lists. -/
def joinDot : List (List Char) → List Char
  | [] => []
  | [w] => w
  | w :: ws => w ++ '.' :: joinDot ws

/-- `hostname.includes(".") ? hostname.split(".").slice(-2).join(".") :
hostname` (line 497), applied after the `www.` strip: keep the last two
dot-separated labels when the hostname contains a dot, else the full
hostname. -/
def normalizeHostnameL (cs : List Char) : List Char :=
  let h := stripWWWL cs
  if '.' ∈ h then
    let ws := splitP (fun c => c == '.') h
    joinDot (ws.drop (ws.length - 2))
  else h

/-- String form of the hostname normalization inside `getDomain`. -/
def normalizeHostname (h : String) : String := ⟨normalizeHostnameL h.data⟩

/-- Whether a string starts with the four characters `www.`. -/
def startsWWW (s : String) : Bool := s.data.take 4 == ['w', 'w', 'w', '.']

/-- `getDomain` (lines 491-509): `null` on a falsy url, `null` on a parse
failure (the catch block - the function never throws), `null` on a falsy
(empty) normalized result, else the normalized hostname.  The domain-cache
write does not affect the returned value and is omitted. -/
def getDomain (url : String) : Option String :=
  if url = "" then none
  else
    match urlHostname url with
    | none => none
    | some h =>
      let d := normalizeHostname h
      if d = "" then none else some d

/-- The single-letter TLD suffix list of the regex
`/(\.com|\.se|\.net|\.org|\.io|\.dev)$/` (line 781), as character lists. -/
def TLD_SUFFIXES : List (List Char) :=
  [".com".data, ".se".data, ".net".data, ".org".data, ".io".data, ".dev".data]

/-- `domain.replace(/(\.com|\.se|\.net|\.org|\.io|\.dev)$/, "")` (line 781):
no listed suffix is a suffix of another, so the regex removes exactly the
suffix the string ends with, if any. -/
def stripTldL (cs : List Char) : List Char :=
  match TLD_SUFFIXES.find? (fun suf => cs.drop (cs.length - suf.length) == suf) with
  | some suf => cs.take (cs.length - suf.length)
  | none => cs

/-- String form of the TLD strip. -/
def stripTld (d : String) : String := ⟨stripTldL d.data⟩

/-- Case-insensitive string comparison,
`a.toLowerCase() === b.toLowerCase()` (line 797). -/
def lowerEq (a b : String) : Bool :=
  a.data.map Char.toLower == b.data.map Char.toLower

/-- `groupMappings[domain] || trimmedDomain` (line 783): the explicit
mapping for the domain when truthy, else the suffix-stripped domain.
Mapping keys are unique, so object lookup is the first association hit. -/
def groupNameFor (maps : List (String × String)) (d : String) : String :=
  match truthy ((maps.find? (fun p => p.1 == d)).map Prod.snd) with
  | some g => g
  | none => stripTld d

/-- A browser tab as the engine sees it: identifier, optional URL, pinned
flag, and current group identifier (`none` is the ungrouped sentinel). -/
structure Tab where
  id : Nat
  url : Option String
  pinned : Bool
  groupId : Option Nat
deriving DecidableEq

/-- A tab group: identifier, title and color tag. -/
structure TabGroup where
  id : Nat
  title : String
  color : String
deriving DecidableEq

/-- The current window's tab and group lists, plus a counter supplying the
fresh identifiers the platform assigns to newly created groups. -/
structure WinState where
  tabs : List Tab
  groups : List TabGroup
  nextId : Nat
deriving DecidableEq

/-- One tab-platform mutating operation, as issued by the engine:
`create` is `chrome.tabs.group({tabIds})`, `attach` is `chrome.tabs.group`
with an explicit `groupId`, `update` is `chrome.tabGroups.update`, `move`
is `chrome.tabs.move`, `ungroup` is `chrome.tabs.ungroup`. -/
inductive TabOp
  | create (gid : Nat) (tabIds : List Nat)
  | attach (gid : Nat) (tabIds : List Nat)
  | update (gid : Nat) (title color : String)
  | move (tabId : Nat) (idx : Nat)
  | ungroup (tabIds : List Nat)
deriving DecidableEq

/-- The candidate filter at line 775:
`tab.url && !tab.pinned && tab.groupId === TAB_GROUP_ID_NONE`,
with JS truthiness for the url (an absent or empty url fails). -/
def passesFilter (t : Tab) : Bool :=
  (t.url.getD "" != "") && !t.pinned && (t.groupId == none)

/-- Classification of one tab (lines 774-791): apply the candidate filter,
extract the domain, resolve the target group name; `none` when the tab is
skipped (filtered out or domain extraction failed). -/
def classify (maps : List (String × String)) (t : Tab) : Option (String × Nat) :=
  if passesFilter t then
    match getDomain (t.url.getD "") with
    | none => none
    | some d => some (groupNameFor maps d, t.id)
  else none

/-- The earlier revision's candidate filter (line 367):
`if (tab.groupId !== TAB_GROUP_ID_NONE || !tab.url) continue;` - only
grouped tabs and url-less tabs are skipped; pinned tabs are NOT excluded. -/
def passesFilterV1 (t : Tab) : Bool :=
  !((t.groupId != none) || (t.url.getD "" == ""))

/-- Classification of one tab in the earlier revision (lines 366-378):
same domain extraction and group-name resolution, but with the filter that
does not exclude pinned tabs. -/
def classifyV1 (maps : List (String × String)) (t : Tab) : Option (String × Nat) :=
  if passesFilterV1 t then
    match getDomain (t.url.getD "") with
    | none => none
    | some d => some (groupNameFor maps d, t.id)
  else none

/-- `existingGroups.find(g => g.title.toLowerCase() === name.toLowerCase())`
(line 797). -/
def findMatch (egs : List TabGroup) (n : String) : Option TabGroup :=
  egs.find? (fun g => lowerEq g.title n)

/-- The attach-to-existing-groups loop (lines 795-811): each classified tab
whose group name matches an existing group's title case-insensitively is
attached to that group (`chrome.tabs.group({tabIds, groupId})`) and spliced
out of further processing; the others remain, in order.  Returns the
`(groupId, tabId)` attach list and the remaining candidates. -/
def attachPass (egs : List TabGroup) :
    List (String × Nat) → List (Nat × Nat) × List (String × Nat)
  | [] => ([], [])
  | (n, tid) :: rest =>
    let ar := attachPass egs rest
    match findMatch egs n with
    | some g => ((g.id, tid) :: ar.1, ar.2)
    | none => (ar.1, (n, tid) :: ar.2)

/-- Group names in first-occurrence order (the key order of a JS `Map`
filled by insertion). -/
def firstOccs : List String → List String
  | [] => []
  | n :: rest => n :: (firstOccs rest).filter (fun m => m != n)

/-- The insertion-ordered `Map` accumulation at lines 814-820: group names
in first-occurrence order, each paired with the tab ids carrying that name,
in order. -/
def partitionByName (rs : List (String × Nat)) : List (String × List Nat) :=
  (firstOccs (rs.map Prod.fst)).map
    (fun n => (n, (rs.filter (fun p => p.1 == n)).map Prod.snd))

/-- Effect on the tab list of `chrome.tabs.group`: every listed tab joins
group `gid`; other tabs are untouched. -/
def setGroup (ts : List Tab) (tids : List Nat) (gid : Nat) : List Tab :=
  ts.map (fun t => if t.id ∈ tids then { t with groupId := some gid } else t)

/-- Apply the attach list to the tab list, one attach at a time. -/
def applyAttaches (att : List (Nat × Nat)) (ts : List Tab) : List Tab :=
  att.foldl (fun ts p => setGroup ts [p.2] p.1) ts

/-- Result of a creation loop: updated tabs, groups, fresh-id counter and
the operations issued. -/
structure PassOut where
  tabs : List Tab
  groups : List TabGroup
  nextId : Nat
  ops : List TabOp
deriving DecidableEq

/-- The group-creation loop (lines 822-832): every partition with at least
two tabs becomes a fresh group (`chrome.tabs.group({tabIds})` followed by
`chrome.tabGroups.update` with the formatted title and resolved color);
smaller partitions are skipped. -/
def createPass (ov : String → Option String) :
    List (String × List Nat) → List Tab → List TabGroup → Nat → PassOut
  | [], ts, gs, nid => ⟨ts, gs, nid, []⟩
  | (n, tids) :: rest, ts, gs, nid =>
    if 2 ≤ tids.length then
      let color := resolveColor ov n
      let title := formatTitle n
      let out := createPass ov rest (setGroup ts tids nid) (gs ++ [⟨nid, title, color⟩]) (nid + 1)
      ⟨out.tabs, out.groups, out.nextId, TabOp.create nid tids :: TabOp.update nid title color :: out.ops⟩
    else createPass ov rest ts gs nid

/-- `moveSingleTabs` (lines 651-685): every currently ungrouped tab is
moved, in order, to the last index (`tabs.length - 1`); one move operation
is issued per ungrouped tab even when the tab is already at the target
position.  The net reordering of moving each ungrouped tab to the back in
sequence puts grouped tabs first and ungrouped tabs last, both in their
original relative order. -/
def moveSingle (ts : List Tab) : List Tab × List TabOp :=
  let ung := ts.filter (fun t => t.groupId == none)
  if ung.isEmpty then (ts, [])
  else (ts.filter (fun t => !(t.groupId == none)) ++ ung,
        ung.map (fun t => TabOp.move t.id (ts.length - 1)))

/-- The classified candidates of a pass, in tab order (lines 774-793). -/
def candidatesOf (maps : List (String × String)) (s : WinState) : List (String × Nat) :=
  s.tabs.filterMap (classify maps)

/-- The attach list of a pass. -/
def attOf (maps : List (String × String)) (s : WinState) : List (Nat × Nat) :=
  (attachPass s.groups (candidatesOf maps s)).1

/-- The candidates remaining after the attach loop. -/
def remOf (maps : List (String × String)) (s : WinState) : List (String × Nat) :=
  (attachPass s.groups (candidatesOf maps s)).2

/-- The name partitions of the remaining candidates (lines 814-820). -/
def partsOf (maps : List (String × String)) (s : WinState) : List (String × List Nat) :=
  partitionByName (remOf maps s)

/-- The tab list after the attach loop has been applied. -/
def tabs1Of (maps : List (String × String)) (s : WinState) : List Tab :=
  applyAttaches (attOf maps s) s.tabs

/-- The state after the creation loop. -/
def createdOf (maps : List (String × String)) (ov : String → Option String)
    (s : WinState) : PassOut :=
  createPass ov (partsOf maps s) (tabs1Of maps s) s.groups s.nextId

/-- `groupTabsByDomain`, revision at lines 762-840: early exit when the
window has at most one tab (which also skips `moveSingleTabs`); otherwise
classify, attach to existing groups first, partition the remainder and
create a group for every partition of two or more tabs, and finally
relocate the still-ungrouped tabs to the end.  Returns the new window state
and the list of tab-platform operations issued, in order. -/
def groupTabsByDomain (maps : List (String × String)) (ov : String → Option String)
    (s : WinState) : WinState × List TabOp :=
  if s.tabs.length ≤ 1 then (s, [])
  else
    let c := createdOf maps ov s
    let m := moveSingle c.tabs
    (⟨m.1, c.groups, c.nextId⟩,
      (attOf maps s).map (fun p => TabOp.attach p.1 [p.2]) ++ c.ops ++ m.2)

/-- The earlier revision's grouping loop (lines 382-399): partitions of at
least two tabs are attached to an exact-title-matching existing group
(`group.title === groupName`, case-sensitive), else a new group is created
and updated; there is no per-tab attach loop and no pinned filter. -/
def processV1 (ov : String → Option String) (egs : List TabGroup) :
    List (String × List Nat) → List Tab → List TabGroup → Nat → PassOut
  | [], ts, gs, nid => ⟨ts, gs, nid, []⟩
  | (n, tids) :: rest, ts, gs, nid =>
    if 2 ≤ tids.length then
      let color := resolveColor ov n
      let title := formatTitle n
      match egs.find? (fun g => g.title == n) with
      | some g =>
        let out := processV1 ov egs rest (setGroup ts tids g.id) gs nid
        ⟨out.tabs, out.groups, out.nextId, TabOp.attach g.id tids :: out.ops⟩
      | none =>
        let out := processV1 ov egs rest (setGroup ts tids nid) (gs ++ [⟨nid, title, color⟩]) (nid + 1)
        ⟨out.tabs, out.groups, out.nextId, TabOp.create nid tids :: TabOp.update nid title color :: out.ops⟩
    else processV1 ov egs rest ts gs nid

/-- `groupTabsByDomain`, revision at lines 353-409: classify every
non-grouped tab that has a URL (pinned tabs included), partition by group
name, and process each partition of at least two tabs; no early exit, no
per-tab attach loop, no relocation of singles. -/
def groupTabsByDomainV1 (maps : List (String × String)) (ov : String → Option String)
    (s : WinState) : WinState × List TabOp :=
  let cands := s.tabs.filterMap (classifyV1 maps)
  let out := processV1 ov s.groups (partitionByName cands) s.tabs s.groups s.nextId
  (⟨out.tabs, out.groups, out.nextId⟩, out.ops)

/-- Number of tabs currently in group `gid`. -/
def tabCount (ts : List Tab) (gid : Nat) : Nat :=
  (ts.filter (fun t => t.groupId == some gid)).length

/-- The groups with fewer than two tabs (lines 618-621). -/
def undersized (s : WinState) : List TabGroup :=
  s.groups.filter (fun g => decide (tabCount s.tabs g.id < 2))

/-- The ids of the tabs sitting in an undersized group (lines 624-627). -/
def dissolvedTabIds (s : WinState) : List Nat :=
  (s.tabs.filter (fun t => (undersized s).any (fun g => some g.id == t.groupId))).map Tab.id

/-- `removeEmptyGroups` (lines 602-637): every group with fewer than two
tabs is dissolved by ungrouping all its tabs in one bulk
`chrome.tabs.ungroup` call (issued only when there is something to
ungroup); the platform drops a tab group when its last tab leaves, modelled
by keeping only the groups that still have a tab. -/
def removeEmptyGroups (s : WinState) : WinState × List TabOp :=
  let tabs' := s.tabs.map
    (fun t => if t.id ∈ dissolvedTabIds s then { t with groupId := none } else t)
  let groups' := s.groups.filter (fun g => tabs'.any (fun t => t.groupId == some g.id))
  (⟨tabs', groups', s.nextId⟩,
    if (dissolvedTabIds s).isEmpty then [] else [TabOp.ungroup (dissolvedTabIds s)])

/-- A queue operation: an identifier plus whether running it succeeds
(`false` models an operation whose promise rejects). -/
structure QOp where
  id : Nat
  ok : Bool
deriving DecidableEq

/-- The observable state of `OperationQueue` (lines 2-30): the pending
FIFO, the busy flag, the operations already executed in order, and the full
submission history in order. -/
structure QueueState where
  pending : List QOp
  processing : Bool
  executed : List QOp
  submitted : List QOp
deriving DecidableEq

/-- A fresh queue. -/
def QueueState.init : QueueState := ⟨[], false, [], []⟩

/-- Small-step semantics of `OperationQueue`.  `enqueue` appends to the
FIFO (line 10); `processQueue` sets the busy flag before its first await
(line 19), then repeatedly shifts the head operation and runs it - a
throwing operation is caught and logged (lines 22-26), so the `exec` step
fires regardless of the operation's outcome - and clears the flag once the
queue empties (line 28).  Because `processing` is set synchronously, a
concurrent `enqueue` during a running operation only appends; it never
starts a second consumer, so at most one operation executes at a time. -/
inductive QueueStep : QueueState → QueueState → Prop
  | enqueue (s : QueueState) (op : QOp) :
      QueueStep s ⟨s.pending ++ [op], s.processing, s.executed, s.submitted ++ [op]⟩
  | start (s : QueueState) : s.processing = false → s.pending ≠ [] →
      QueueStep s ⟨s.pending, true, s.executed, s.submitted⟩
  | exec (s : QueueState) (op : QOp) (rest : List QOp) :
      s.processing = true → s.pending = op :: rest →
      QueueStep s ⟨rest, true, s.executed ++ [op], s.submitted⟩
  | finish (s : QueueState) : s.processing = true → s.pending = [] →
      QueueStep s ⟨[], false, s.executed, s.submitted⟩

/-- The states an `OperationQueue` can reach from fresh. -/
def QueueReachable (s : QueueState) : Prop :=
  Relation.ReflTransGen QueueStep QueueState.init s

/-- The empty mapping / override tables used by concrete instances. -/
def noMaps : List (String × String) := []

/-- The always-absent color override table. -/
def noColors : String → Option String := fun _ => none

/-- Concrete window state: two ungrouped tabs on different domains. -/
def sTwoSingles : WinState :=
  ⟨[⟨1, some "https://a.com/", false, none⟩, ⟨2, some "https://b.com/", false, none⟩], [], 100⟩

/-- Concrete window state: two ungrouped tabs on one domain, one pinned. -/
def sPinnedPair : WinState :=
  ⟨[⟨1, some "https://a.com/", true, none⟩, ⟨2, some "https://a.com/x", false, none⟩], [], 50⟩

/-- Concrete window state: two ungrouped github tabs and an existing group
whose title matches the target group name only case-insensitively. -/
def sGithubPair : WinState :=
  ⟨[⟨1, some "https://github.com/a", false, none⟩, ⟨2, some "https://github.com/b", false, none⟩],
   [⟨10, "Github", "blue"⟩], 50⟩

/-- Concrete window state: a one-tab group (7) and a two-tab group (8). -/
def sCleanup : WinState :=
  ⟨[⟨1, some "https://a.com/", false, some 7⟩, ⟨2, none, false, some 8⟩, ⟨3, none, false, some 8⟩],
   [⟨7, "a", "red"⟩, ⟨8, "b", "blue"⟩], 20⟩

/-! ### Lemmas about splitting and hostname normalization -/

lemma splitP_ne_nil (sep : Char → Bool) (cs : List Char) : splitP sep cs ≠ [] := by
  cases cs with
  | nil => simp [splitP]
  | cons c rest =>
    simp only [splitP]
    cases h : splitP sep rest with
    | nil => simp
    | cons w ws => by_cases hc : sep c <;> simp [hc]

lemma splitP_exists_cons (sep : Char → Bool) (cs : List Char) :
    ∃ w ws, splitP sep cs = w :: ws := by
  cases h : splitP sep cs with
  | nil => exact absurd h (splitP_ne_nil sep cs)
  | cons w ws => exact ⟨w, ws, rfl⟩

lemma splitP_cons (sep : Char → Bool) (c : Char) (rest w : List Char) (ws : List (List Char))
    (hsp : splitP sep rest = w :: ws) :
    splitP sep (c :: rest) = if sep c then [] :: w :: ws else (c :: w) :: ws := by
  simp only [splitP, hsp]

lemma mem_splitP (sep : Char → Bool) :
    ∀ cs : List Char, ∀ w ∈ splitP sep cs, ∀ c ∈ w, sep c = false := by
  intro cs
  induction cs with
  | nil =>
    intro w hw c hc
    simp only [splitP, List.mem_singleton] at hw
    subst hw
    cases hc
  | cons a rest ih =>
    obtain ⟨w0, ws, hsp⟩ := splitP_exists_cons sep rest
    intro w hw c hc
    rw [splitP_cons sep a rest w0 ws hsp] at hw
    by_cases ha : sep a = true
    · rw [if_pos ha] at hw
      rcases List.mem_cons.mp hw with h | h
      · subst h; cases hc
      · exact ih w (hsp ▸ h) c hc
    · rw [if_neg ha] at hw
      rcases List.mem_cons.mp hw with h | h
      · subst h
        rcases List.mem_cons.mp hc with h1 | h1
        · subst h1; simpa using ha
        · exact ih w0 (hsp ▸ List.mem_cons_self w0 ws) c h1
      · exact ih w (hsp ▸ List.mem_cons_of_mem w0 h) c hc

lemma splitP_no_sep (sep : Char → Bool) :
    ∀ cs : List Char, (∀ c ∈ cs, sep c = false) → splitP sep cs = [cs] := by
  intro cs
  induction cs with
  | nil => intro _; rfl
  | cons c rest ih =>
    intro h
    have hc : ¬ (sep c = true) := by simp [h c (List.mem_cons_self _ _)]
    have hr : splitP sep rest = [rest] := ih (fun x hx => h x (List.mem_cons_of_mem _ hx))
    rw [splitP_cons sep c rest rest [] hr, if_neg hc]

lemma splitP_append (sep : Char → Bool) (d : Char) (b : List Char) (hd : sep d = true) :
    ∀ a : List Char, (∀ c ∈ a, sep c = false) →
      splitP sep (a ++ d :: b) = a :: splitP sep b := by
  intro a
  induction a with
  | nil =>
    intro _
    obtain ⟨w, ws, hb⟩ := splitP_exists_cons sep b
    rw [List.nil_append, splitP_cons sep d b w ws hb, if_pos hd, hb]
  | cons c a' ih =>
    intro h
    have hc : ¬ (sep c = true) := by simp [h c (List.mem_cons_self _ _)]
    have hr := ih (fun x hx => h x (List.mem_cons_of_mem _ hx))
    rw [List.cons_append, splitP_cons sep c (a' ++ d :: b) a' (splitP sep b) hr, if_neg hc]

lemma two_le_splitP_length (sep : Char → Bool) :
    ∀ cs : List Char, ∀ d ∈ cs, sep d = true → 2 ≤ (splitP sep cs).length := by
  intro cs
  induction cs with
  | nil => intro d hd; cases hd
  | cons c rest ih =>
    intro d hd hsep
    obtain ⟨w0, ws, hsp⟩ := splitP_exists_cons sep rest
    rw [splitP_cons sep c rest w0 ws hsp]
    by_cases hc : sep c = true
    · rw [if_pos hc]; simp
    · rw [if_neg hc]
      rcases List.mem_cons.mp hd with h | h
      · subst h; exact absurd hsep hc
      · have := ih d h hsep
        rw [hsp] at this
        simpa using this

lemma joinDot_pair (w1 w2 : List Char) : joinDot [w1, w2] = w1 ++ '.' :: w2 := by
  simp [joinDot]

lemma normalizeHostnameL_of_dot (cs : List Char) (h : '.' ∈ stripWWWL cs) :
    normalizeHostnameL cs =
      joinDot ((splitP (fun c => c == '.') (stripWWWL cs)).drop
        ((splitP (fun c => c == '.') (stripWWWL cs)).length - 2)) := by
  unfold normalizeHostnameL
  simp [h]

lemma normalizeHostnameL_of_no_dot (cs : List Char) (h : '.' ∉ stripWWWL cs) :
    normalizeHostnameL cs = stripWWWL cs := by
  unfold normalizeHostnameL
  simp [h]

lemma stripWWWL_of_no_dot (cs : List Char) (h : '.' ∉ cs) : stripWWWL cs = cs := by
  unfold stripWWWL
  split
  · next heq =>
    exact absurd (List.mem_of_mem_take (by rw [heq]; simp)) h
  · rfl

/-- If a hostname has no dot, normalization leaves it unchanged and it has
no `www.` to strip, so it is a fixed point. -/
lemma normalizeHostnameL_fix_of_no_dot (cs : List Char) (h : '.' ∉ cs) :
    normalizeHostnameL cs = cs := by
  rw [normalizeHostnameL_of_no_dot cs (by rw [stripWWWL_of_no_dot cs h]; exact h),
    stripWWWL_of_no_dot cs h]

lemma normalizeHostnameL_idem (cs : List Char)
    (hw : (normalizeHostnameL cs).take 4 ≠ ['w', 'w', 'w', '.']) :
    normalizeHostnameL (normalizeHostnameL cs) = normalizeHostnameL cs := by
  by_cases hd : '.' ∈ stripWWWL cs
  · -- the normalized form is the last two labels joined by a dot
    have h2 : 2 ≤ (splitP (fun c => c == '.') (stripWWWL cs)).length :=
      two_le_splitP_length _ _ '.' hd (by simp)
    have hlen : ((splitP (fun c => c == '.') (stripWWWL cs)).drop
        ((splitP (fun c => c == '.') (stripWWWL cs)).length - 2)).length = 2 := by
      rw [List.length_drop]
      omega
    rcases List.length_eq_two.mp hlen with ⟨w1, w2, hdr⟩
    have hd12 : normalizeHostnameL cs = w1 ++ '.' :: w2 := by
      rw [normalizeHostnameL_of_dot cs hd, hdr, joinDot_pair]
    have hw1 : ∀ c ∈ w1, (c == '.') = false := by
      intro c hc
      exact mem_splitP _ _ w1
        (List.mem_of_mem_drop (by rw [hdr]; exact List.mem_cons_self _ _)) c hc
    have hw2 : ∀ c ∈ w2, (c == '.') = false := by
      intro c hc
      exact mem_splitP _ _ w2
        (List.mem_of_mem_drop (by rw [hdr]; simp)) c hc
    -- normalizing the output: no www strip, dot present, same two labels
    have hstrip : stripWWWL (normalizeHostnameL cs) = normalizeHostnameL cs := by
      unfold stripWWWL
      split
      · next heq => exact absurd heq hw
      · rfl
    have hdot : '.' ∈ stripWWWL (normalizeHostnameL cs) := by
      rw [hstrip, hd12]
      simp
    have hsplit : splitP (fun c => c == '.') (stripWWWL (normalizeHostnameL cs)) = [w1, w2] := by
      rw [hstrip, hd12, splitP_append _ _ _ (by simp) w1 hw1, splitP_no_sep _ w2 hw2]
    rw [normalizeHostnameL_of_dot _ hdot, hsplit, hd12]
    simp [joinDot_pair]
  · -- no dot: the normalized form is the stripped hostname, a fixed point
    rw [normalizeHostnameL_of_no_dot cs hd]
    exact normalizeHostnameL_fix_of_no_dot _ hd

/-! ### Theorems for the claims about domain normalization (C9, C3) -/

/-- C9 counterexample: the claim "normalizing twice equals normalizing
once, for every hostname" fails at the hostname `a.www.com`: one
normalization yields `www.com`, whose own normalization strips the leading
`www.` and yields `com`. -/
theorem c9_counterexample :
    normalizeHostname "a.www.com" = "www.com" ∧
    normalizeHostname (normalizeHostname "a.www.com") = "com" ∧
    normalizeHostname (normalizeHostname "a.www.com") ≠ normalizeHostname "a.www.com" := by
  refine ⟨by decide, by decide, by decide⟩

/-- C9 (amended): the normalization used by `getDomain` (strip a leading
`www.`, then keep the last two dot-separated labels when a dot remains) is
idempotent for every hostname whose normalized form does not itself start
with `www.`; hostnames whose second-to-last label is exactly `www` (such as
`a.www.com`) normalize to a `www.`-prefixed value that a second
normalization shortens further. -/
theorem c9_normalize_idempotent (h : String) (hw : startsWWW (normalizeHostname h) = false) :
    normalizeHostname (normalizeHostname h) = normalizeHostname h := by
  have hw' : (normalizeHostnameL h.data).take 4 ≠ ['w', 'w', 'w', '.'] := by
    have := beq_eq_false_iff_ne.mp hw
    simpa [startsWWW, normalizeHostname] using this
  simp only [normalizeHostname]
  exact congrArg String.mk (normalizeHostnameL_idem h.data hw')

/-- C9 witness: the hypothesis and conclusion at the hostname
`sub.example.co.uk`. -/
theorem c9_witness :
    startsWWW (normalizeHostname "sub.example.co.uk") = false ∧
    normalizeHostname (normalizeHostname "sub.example.co.uk") =
      normalizeHostname "sub.example.co.uk" :=
  ⟨by decide, c9_normalize_idempotent "sub.example.co.uk" (by decide)⟩

/-- C3 counterexample: the claim's example value for
`getDomain("http://sub.example.co.uk")` is `"example.co.uk"`, but the code
keeps the LAST two dot-separated labels, which yields `"co.uk"`. -/
theorem c3_counterexample :
    getDomain "http://sub.example.co.uk" = some "co.uk" ∧
    getDomain "http://sub.example.co.uk" ≠ some "example.co.uk" := by
  refine ⟨by decide, by decide⟩

/-- C3 (amended): `getDomain` never throws (it is a total function into
`Option`); a URL that fails to parse yields `none`; a URL that parses
yields the hostname with a leading `www.` stripped and, when a dot remains,
only the last two dot-separated labels - so
`getDomain "https://www.github.com/foo" = some "github.com"`,
`getDomain "http://sub.example.co.uk" = some "co.uk"` (not
`"example.co.uk"`), and `getDomain "not a url" = none`. -/
theorem c3_domain_extraction :
    getDomain "https://www.github.com/foo" = some "github.com" ∧
    getDomain "http://sub.example.co.uk" = some "co.uk" ∧
    getDomain "not a url" = none ∧
    (∀ url, urlHostname url = none → getDomain url = none) ∧
    (∀ url h, urlHostname url = some h →
      getDomain url = if normalizeHostname h = "" then none else some (normalizeHostname h)) := by
  refine ⟨by decide, by decide, by decide, ?_, ?_⟩
  · intro url hu
    by_cases h0 : url = "" <;> simp [getDomain, h0, hu]
  · intro url h hu
    have h0 : url ≠ "" := by
      intro h0
      rw [h0] at hu
      exact Option.noConfusion ((rfl : urlHostname "" = none) ▸ hu)
    simp [getDomain, h0, hu]

/-- C3 witness: the parse-failure clause applied at the concrete input
`"not a url"`. -/
theorem c3_witness :
    urlHostname "not a url" = none ∧ getDomain "not a url" = none :=
  ⟨by decide, c3_domain_extraction.2.2.2.1 "not a url" (by decide)⟩

/-! ### Theorems for the title formatter (C7, C10) -/

lemma abbreviate_eq (n : String) :
    abbreviate n =
      if 1 < (wordsOf n).length then
        String.mk (jsUpperL [((wordsOf n).getD 0 []).headD 'a',
                             ((wordsOf n).getD 1 []).headD 'a'])
      else String.mk (jsUpperL (n.data.take 5)) := rfl

lemma jsUpperL_cons (c : Char) (cs : List Char) :
    jsUpperL (c :: cs) = jsUpperChar c ++ jsUpperL cs := by
  simp [jsUpperL]

lemma jsUpperL_length_single :
    ∀ cs : List Char, (∀ c ∈ cs, (jsUpperChar c).length = 1) →
      (jsUpperL cs).length = cs.length := by
  intro cs
  induction cs with
  | nil => intro _; rfl
  | cons c rest ih =>
    intro h
    rw [jsUpperL_cons, List.length_append, h c (List.mem_cons_self _ _),
      ih (fun x hx => h x (List.mem_cons_of_mem _ hx))]
    simp [Nat.add_comm]

/-- Every character of a filtered word is alphanumeric (it survived the
split on `[^a-zA-Z0-9]`). -/
lemma wordsOf_alnum (n : String) : ∀ w ∈ wordsOf n, ∀ c ∈ w, isAlnum c = true := by
  intro w hw c hc
  have hw' := (List.mem_filter.mp hw).1
  have := mem_splitP (fun c => !isAlnum c) (trimL n.data) w hw' c hc
  simpa using this

/-- An ASCII alphanumeric character has a single-character uppercase
mapping (in particular it is not `ß`). -/
lemma jsUpperChar_alnum {c : Char} (h : isAlnum c = true) : (jsUpperChar c).length = 1 := by
  unfold jsUpperChar
  rw [if_neg]
  · rfl
  · intro hc
    rw [hc] at h
    exact absurd h (by decide)

/-- C7 (confirmed): a group name of length at most 15 is displayed
unchanged; a longer name is split on non-alphanumeric characters with empty
segments dropped, and with at least two words the title is the first letter
of the first two words upper-cased, otherwise the first five characters of
the original name upper-cased; in particular `"My Favorite Site"` maps to
`"MF"` and `"supercalifragilistic"` maps to `"SUPER"`. -/
theorem c7_format_title :
    (∀ n : String, n.length ≤ 15 → formatTitle n = n) ∧
    (∀ n : String, 15 < n.length → 2 ≤ (wordsOf n).length →
      formatTitle n =
        String.mk (jsUpperL [((wordsOf n).getD 0 []).headD 'a',
                             ((wordsOf n).getD 1 []).headD 'a'])) ∧
    (∀ n : String, 15 < n.length → (wordsOf n).length ≤ 1 →
      formatTitle n = String.mk (jsUpperL (n.data.take 5))) ∧
    formatTitle "My Favorite Site" = "MF" ∧
    formatTitle "supercalifragilistic" = "SUPER" := by
  refine ⟨?_, ?_, ?_, by decide, by decide⟩
  · intro n hn
    simp [formatTitle, Nat.not_lt.mpr hn]
  · intro n hn hws
    have h1 : 1 < (wordsOf n).length := hws
    have hft : formatTitle n = abbreviate n := by simp [formatTitle, hn]
    rw [hft, abbreviate_eq n, if_pos h1]
  · intro n hn hws
    have h1 : ¬ 1 < (wordsOf n).length := by omega
    have hft : formatTitle n = abbreviate n := by simp [formatTitle, hn]
    rw [hft, abbreviate_eq n, if_neg h1]

/-- C7 witness: the short-name clause at `"github"` and the abbreviation
clauses at the two documented examples. -/
theorem c7_witness :
    ("github" : String).length ≤ 15 ∧ formatTitle "github" = "github" ∧
    15 < ("My Favorite Site" : String).length ∧ 2 ≤ (wordsOf "My Favorite Site").length ∧
    formatTitle "My Favorite Site" =
      String.mk (jsUpperL [((wordsOf "My Favorite Site").getD 0 []).headD 'a',
                           ((wordsOf "My Favorite Site").getD 1 []).headD 'a']) :=
  ⟨by decide, c7_format_title.1 "github" (by decide), by decide, by decide,
    c7_format_title.2.1 "My Favorite Site" (by decide) (by decide)⟩

set_option maxRecDepth 4096 in
/-- C10 counterexample: JS `toUpperCase` uses full Unicode case mapping,
where `ß` expands to `SS`; on the input `ßßßßßß` - a string with no
alphanumeric characters, a case the claim explicitly covers - the filtered
word list is empty and `abbreviate` returns the upper-cased first five
characters, `SSSSSSSSSS`, of length 10, refuting the claimed bound of 5. -/
theorem c10_counterexample :
    abbreviate "ßßßßßß" = "SSSSSSSSSS" ∧
    (abbreviate "ßßßßßß").length = 10 ∧
    ¬ (abbreviate "ßßßßßß").length ≤ 5 := by
  refine ⟨by decide, by decide, by decide⟩

/-- C10 (amended): `abbreviate` is total and performs no out-of-bounds
access - every filtered word is nonempty, so the `words[0][0]` and
`words[1][0]` reads are in bounds, including for the empty string and for
strings with no alphanumeric characters; with at least two words the
result has exactly 2 characters (word characters are ASCII alphanumerics,
whose uppercase is a single character); otherwise the result is the first
5 characters of the original (untrimmed) string upper-cased.  The length
bound of 5 does NOT hold in general, because `toUpperCase` can expand a
character (`ß` becomes `SS`); it holds whenever each of the first five
characters has a single-character uppercase mapping - in particular for
ASCII input. -/
theorem c10_abbreviate_total_bounded :
    (∀ n : String, ∀ w ∈ wordsOf n, w ≠ []) ∧
    (∀ n : String, 2 ≤ (wordsOf n).length → (abbreviate n).length = 2) ∧
    (∀ n : String, (wordsOf n).length ≤ 1 →
      abbreviate n = String.mk (jsUpperL (n.data.take 5))) ∧
    (∀ n : String, (∀ c ∈ n.data.take 5, (jsUpperChar c).length = 1) →
      (abbreviate n).length ≤ 5) := by
  have hne : ∀ n : String, ∀ w ∈ wordsOf n, w ≠ [] := by
    intro n w hw
    have := (List.mem_filter.mp hw).2
    simpa using this
  have hmkLen : ∀ l : List Char, (String.mk l).length = l.length := fun _ => rfl
  have htwo : ∀ n : String, 2 ≤ (wordsOf n).length → (abbreviate n).length = 2 := by
    intro n h
    have h1 : 1 < (wordsOf n).length := h
    rw [abbreviate_eq n, if_pos h1, hmkLen]
    cases hw : wordsOf n with
    | nil => rw [hw] at h1; simp at h1
    | cons w0 tl =>
      cases tl with
      | nil => rw [hw] at h1; simp at h1
      | cons w1 rest =>
        have hg0 : (w0 :: w1 :: rest).getD 0 [] = w0 := rfl
        have hg1 : (w0 :: w1 :: rest).getD 1 [] = w1 := rfl
        rw [hg0, hg1]
        have hw0mem : w0 ∈ wordsOf n := by rw [hw]; exact List.mem_cons_self _ _
        have hw1mem : w1 ∈ wordsOf n := by
          rw [hw]; exact List.mem_cons_of_mem _ (List.mem_cons_self _ _)
        have hw0ne : w0 ≠ [] := hne n w0 hw0mem
        have hw1ne : w1 ≠ [] := hne n w1 hw1mem
        have hc0 : w0.headD 'a' ∈ w0 := by
          cases w0 with
          | nil => exact absurd rfl hw0ne
          | cons c cs => exact List.mem_cons_self _ _
        have hc1 : w1.headD 'a' ∈ w1 := by
          cases w1 with
          | nil => exact absurd rfl hw1ne
          | cons c cs => exact List.mem_cons_self _ _
        have ha0 : isAlnum (w0.headD 'a') = true := wordsOf_alnum n w0 hw0mem _ hc0
        have ha1 : isAlnum (w1.headD 'a') = true := wordsOf_alnum n w1 hw1mem _ hc1
        rw [jsUpperL_cons, jsUpperL_cons, List.length_append, List.length_append,
          jsUpperChar_alnum ha0, jsUpperChar_alnum ha1]
        rfl
  have helse : ∀ n : String, (wordsOf n).length ≤ 1 →
      abbreviate n = String.mk (jsUpperL (n.data.take 5)) := by
    intro n h
    have h1 : ¬ 1 < (wordsOf n).length := by omega
    rw [abbreviate_eq n, if_neg h1]
  refine ⟨hne, htwo, helse, ?_⟩
  intro n h
  by_cases h1 : 1 < (wordsOf n).length
  · have := htwo n h1
    omega
  · have h2 : (wordsOf n).length ≤ 1 := by omega
    rw [helse n h2, hmkLen, jsUpperL_length_single _ h, List.length_take]
    exact Nat.min_le_left _ _

/-- C10 witness: the empty string (empty word list), a two-word name, and
an all-ASCII long name where the single-character-uppercase hypothesis
holds and the bound of 5 follows. -/
theorem c10_witness :
    (wordsOf "").length ≤ 1 ∧
    abbreviate "" = String.mk (jsUpperL (("" : String).data.take 5)) ∧
    2 ≤ (wordsOf "My Favorite Site").length ∧
    (abbreviate "My Favorite Site").length = 2 ∧
    (∀ c ∈ ("supercalifragilistic" : String).data.take 5, (jsUpperChar c).length = 1) ∧
    (abbreviate "supercalifragilistic").length ≤ 5 :=
  ⟨by decide, c10_abbreviate_total_bounded.2.2.1 "" (by decide), by decide,
    c10_abbreviate_total_bounded.2.1 "My Favorite Site" (by decide),
    by decide,
    c10_abbreviate_total_bounded.2.2.2 "supercalifragilistic" (by decide)⟩

/-! ### Theorems for the color resolver (C6) -/

lemma truthy_eq_some (o : Option String) (c : String) (h : truthy o = some c) : o = some c := by
  cases o with
  | none => simp [truthy] at h
  | some s =>
    simp only [truthy] at h
    by_cases hs : s = ""
    · rw [if_pos hs] at h; cases h
    · rw [if_neg hs] at h; exact h

set_option maxRecDepth 4096 in
lemma hashColor_ne_empty (n : String) : hashColor n ≠ "" := by
  have hlt : (hashCode n).natAbs % COLOR_PALETTE.length < 9 :=
    Nat.mod_lt _ (by decide)
  have : ∀ j : Fin 9, COLOR_PALETTE.getD j.val "" ≠ "" := by decide
  exact this ⟨(hashCode n).natAbs % COLOR_PALETTE.length, hlt⟩

lemma generateColor_fst (ov cache : String → Option String) (n : String)
    (h : goodCache cache) : (generateColor ov cache n).1 = resolveColor ov n := by
  unfold generateColor resolveColor
  cases truthy (ov n) with
  | some c => rfl
  | none =>
    cases hc : truthy (cache n) with
    | some c =>
      have := h n c (truthy_eq_some _ _ hc)
      simpa using this
    | none => rfl

/-- C6 (confirmed): `generateColor` is deterministic within a session: on
any two well-formed cache states (the empty cache is well formed, the
function preserves well-formedness, and TTL expiry only removes entries),
with the explicit override for the name unchanged between the calls, both
calls return the same color - namely the override when one is set, else
the hash of the name reduced modulo the 9-color palette. -/
theorem c6_generate_color_deterministic (ov₁ ov₂ c₁ c₂ : String → Option String) (n : String)
    (h₁ : goodCache c₁) (h₂ : goodCache c₂) (hov : ov₁ n = ov₂ n) :
    (generateColor ov₁ c₁ n).1 = (generateColor ov₂ c₂ n).1 ∧
    (generateColor ov₁ c₁ n).1 = resolveColor ov₁ n ∧
    goodCache (generateColor ov₁ c₁ n).2 := by
  refine ⟨?_, generateColor_fst ov₁ c₁ n h₁, ?_⟩
  · rw [generateColor_fst ov₁ c₁ n h₁, generateColor_fst ov₂ c₂ n h₂]
    unfold resolveColor
    rw [hov]
  · unfold generateColor
    cases truthy (ov₁ n) with
    | some c => exact h₁
    | none =>
      cases hc : truthy (c₁ n) with
      | some c => exact h₁
      | none =>
        intro m x hx
        have hx' : (if m = n then some (hashColor n) else c₁ m) = some x := hx
        by_cases hm : m = n
        · subst hm
          rw [if_pos rfl] at hx'
          exact (Option.some_inj.mp hx').symm
        · rw [if_neg hm] at hx'
          exact h₁ m x hx'

/-- C6 witness: two calls on `"github"`, one from a fresh session state and
one against a cache warmed by another name, with override tables that agree
on `"github"`, return the same color. -/
theorem c6_witness :
    goodCache (fun _ => none) ∧
    (fun m => if m = "octocat" then some "red" else none) "github" = noColors "github" ∧
    (generateColor (fun m => if m = "octocat" then some "red" else none)
        (fun _ => none) "github").1 =
      (generateColor noColors (fun m => if m = "gitlab" then some (hashColor "gitlab") else none)
        "github").1 :=
  ⟨fun _ _ h => Option.noConfusion h, by decide,
    (c6_generate_color_deterministic
      (fun m => if m = "octocat" then some "red" else none) noColors
      (fun _ => none)
      (fun m => if m = "gitlab" then some (hashColor "gitlab") else none)
      "github"
      (fun _ _ h => Option.noConfusion h)
      (fun m c h => by
        have h' : (if m = "gitlab" then some (hashColor "gitlab") else none) = some c := h
        by_cases hm : m = "gitlab"
        · rw [if_pos hm] at h'
          rw [hm]
          exact (Option.some_inj.mp h').symm
        · rw [if_neg hm] at h'
          exact Option.noConfusion h')
      (by decide)).1⟩

/-! ### Theorems for the operation queue (C8) -/

/-- C8 (confirmed): every reachable state of `OperationQueue` satisfies
`submitted = executed ++ pending`: operations run one at a time (the single
`exec` step), strictly in FIFO submission order, each exactly once, and a
throwing operation is caught - the `exec` step fires regardless of the
operation's outcome - so a failure never prevents later operations from
running.  In particular, whenever the queue drains, the executed sequence
is exactly the submission sequence. -/
theorem c8_queue_fifo (s : QueueState) (hs : QueueReachable s) :
    s.submitted = s.executed ++ s.pending ∧
    (s.pending = [] → s.executed = s.submitted) := by
  have main : s.submitted = s.executed ++ s.pending := by
    induction hs with
    | refl => rfl
    | tail _ step ih =>
      cases step with
      | enqueue op => simp [ih, List.append_assoc]
      | start h1 h2 => exact ih
      | exec op rest h1 h2 =>
        rw [ih, h2]
        simp
      | finish h1 h2 =>
        rw [ih, h2]
  exact ⟨main, fun hp => by rw [main, hp, List.append_nil]⟩

/-- C8 witness: a concrete run - enqueue a failing operation, execute it
(caught), enqueue a second operation while processing, execute it, drain -
reaches a state where the executed sequence equals the submission sequence,
failure notwithstanding. -/
theorem c8_witness :
    QueueReachable ⟨[], false, [⟨0, false⟩, ⟨1, true⟩], [⟨0, false⟩, ⟨1, true⟩]⟩ ∧
    (⟨[], false, [⟨0, false⟩, ⟨1, true⟩], [⟨0, false⟩, ⟨1, true⟩]⟩ : QueueState).executed =
      (⟨[], false, [⟨0, false⟩, ⟨1, true⟩], [⟨0, false⟩, ⟨1, true⟩]⟩ : QueueState).submitted := by
  have htr : QueueReachable
      (⟨[], false, [⟨0, false⟩, ⟨1, true⟩], [⟨0, false⟩, ⟨1, true⟩]⟩ : QueueState) := by
    refine Relation.ReflTransGen.head (QueueStep.enqueue QueueState.init ⟨0, false⟩) ?_
    refine Relation.ReflTransGen.head
      (QueueStep.start ⟨[⟨0, false⟩], false, [], [⟨0, false⟩]⟩ rfl (by simp)) ?_
    refine Relation.ReflTransGen.head
      (QueueStep.exec ⟨[⟨0, false⟩], true, [], [⟨0, false⟩]⟩ ⟨0, false⟩ [] rfl rfl) ?_
    refine Relation.ReflTransGen.head
      (QueueStep.enqueue ⟨[], true, [⟨0, false⟩], [⟨0, false⟩]⟩ ⟨1, true⟩) ?_
    refine Relation.ReflTransGen.head
      (QueueStep.exec ⟨[⟨1, true⟩], true, [⟨0, false⟩], [⟨0, false⟩, ⟨1, true⟩]⟩
        ⟨1, true⟩ [] rfl rfl) ?_
    refine Relation.ReflTransGen.head
      (QueueStep.finish ⟨[], true, [⟨0, false⟩, ⟨1, true⟩], [⟨0, false⟩, ⟨1, true⟩]⟩ rfl rfl) ?_
    exact Relation.ReflTransGen.refl
  exact ⟨htr, (c8_queue_fifo _ htr).2 rfl⟩

/-! ### List utilities for the reconciliation proofs -/

lemma two_le_length_of_mem_ne {α : Type} {x y : α} {l : List α}
    (hx : x ∈ l) (hy : y ∈ l) (hne : x ≠ y) : 2 ≤ l.length := by
  cases l with
  | nil => cases hx
  | cons a t =>
    cases t with
    | nil =>
      simp only [List.mem_singleton] at hx hy
      exact absurd (hx.trans hy.symm) hne
    | cons b t2 =>
      simp only [List.length_cons]
      omega

lemma filter_two_sublist {α : Type} (p : α → Bool) (l : List α)
    (h : 2 ≤ (l.filter p).length) :
    ∃ x y, List.Sublist [x, y] l ∧ p x = true ∧ p y = true := by
  cases hf : l.filter p with
  | nil => rw [hf] at h; simp at h
  | cons x t =>
    cases t with
    | nil => rw [hf] at h; simp at h
    | cons y t2 =>
      refine ⟨x, y, ?_, ?_, ?_⟩
      · have hsub : List.Sublist [x, y] (l.filter p) := by
          rw [hf]
          exact List.Sublist.cons₂ x (List.Sublist.cons₂ y (List.nil_sublist t2))
        exact hsub.trans (List.filter_sublist l)
      · exact (List.mem_filter.mp (by rw [hf]; exact List.mem_cons_self _ _)).2
      · exact (List.mem_filter.mp
          (by rw [hf]; exact List.mem_cons_of_mem _ (List.mem_cons_self _ _))).2

lemma filterMap_pair_sublist {α β : Type} (f : α → Option β) :
    ∀ l : List α, ∀ x y : β, List.Sublist [x, y] (l.filterMap f) →
      ∃ a b, List.Sublist [a, b] l ∧ f a = some x ∧ f b = some y := by
  intro l
  induction l with
  | nil =>
    intro x y h
    rw [List.filterMap_nil] at h
    cases h
  | cons c t ih =>
    intro x y h
    rw [List.filterMap_cons] at h
    cases hf : f c with
    | none =>
      rw [hf] at h
      obtain ⟨a, b, hs, ha, hb⟩ := ih x y h
      exact ⟨a, b, List.Sublist.cons c hs, ha, hb⟩
    | some z =>
      rw [hf] at h
      cases h with
      | cons _ h2 =>
        obtain ⟨a, b, hs, ha, hb⟩ := ih x y h2
        exact ⟨a, b, List.Sublist.cons c hs, ha, hb⟩
      | cons₂ _ h2 =>
        have hy : y ∈ List.filterMap f t := List.singleton_sublist.mp h2
        obtain ⟨b, hb, hfb⟩ := List.mem_filterMap.mp hy
        exact ⟨c, b, List.Sublist.cons₂ c (List.singleton_sublist.mpr hb), hf, hfb⟩

lemma filter_split_perm {α : Type} (p : α → Bool) :
    ∀ l : List α, List.Perm (l.filter (fun a => !(p a)) ++ l.filter p) l := by
  intro l
  induction l with
  | nil => simp
  | cons a t ih =>
    by_cases h : p a = true
    · rw [List.filter_cons_of_neg (by simp [h]), List.filter_cons_of_pos h]
      exact List.perm_middle.trans (ih.cons a)
    · rw [List.filter_cons_of_pos (by simp [h]), List.filter_cons_of_neg h, List.cons_append]
      exact ih.cons a

lemma filter_map_count_ge {α : Type} (f : α → α) (q : α → Bool) :
    ∀ l : List α, (∀ a ∈ l, q a = true → q (f a) = true) →
      (l.filter q).length ≤ ((l.map f).filter q).length := by
  intro l
  induction l with
  | nil => simp
  | cons a t ih =>
    intro h
    rw [List.map_cons]
    by_cases ha : q a = true
    · rw [List.filter_cons_of_pos ha, List.filter_cons_of_pos (h a (List.mem_cons_self _ _) ha)]
      simpa using ih (fun x hx => h x (List.mem_cons_of_mem _ hx))
    · rw [List.filter_cons_of_neg ha]
      have hrec := ih (fun x hx => h x (List.mem_cons_of_mem _ hx))
      by_cases hfa : q (f a) = true
      · rw [List.filter_cons_of_pos hfa]
        exact Nat.le_succ_of_le hrec
      · rw [List.filter_cons_of_neg hfa]
        exact hrec

/-! ### Structural lemmas about `setGroup` and `applyAttaches` -/

lemma mem_setGroup {ts : List Tab} {tids : List Nat} {gid : Nat} {t' : Tab}
    (h : t' ∈ setGroup ts tids gid) :
    ∃ t ∈ ts, t' = if t.id ∈ tids then { t with groupId := some gid } else t := by
  obtain ⟨t, ht, heq⟩ := List.mem_map.mp h
  exact ⟨t, ht, heq.symm⟩

lemma setGroup_ungrouped {ts : List Tab} {tids : List Nat} {gid : Nat} {t' : Tab}
    (h : t' ∈ setGroup ts tids gid) (hu : t'.groupId = none) :
    t' ∈ ts ∧ t'.id ∉ tids := by
  obtain ⟨t, ht, heq⟩ := mem_setGroup h
  by_cases hid : t.id ∈ tids
  · rw [if_pos hid] at heq
    rw [heq] at hu
    simp at hu
  · rw [if_neg hid] at heq
    subst heq
    exact ⟨ht, hid⟩

lemma setGroup_mem_of_not_target {ts : List Tab} {tids : List Nat} {gid : Nat} {t : Tab}
    (ht : t ∈ ts) (hid : t.id ∉ tids) : t ∈ setGroup ts tids gid :=
  List.mem_map.mpr ⟨t, ht, if_neg hid⟩

lemma setGroup_map_id (ts : List Tab) (tids : List Nat) (gid : Nat) :
    (setGroup ts tids gid).map Tab.id = ts.map Tab.id := by
  unfold setGroup
  rw [List.map_map]
  apply List.map_congr_left
  intro t _
  by_cases hid : t.id ∈ tids <;> simp [hid]

lemma applyAttaches_ungrouped :
    ∀ (att : List (Nat × Nat)) (ts : List Tab) (t' : Tab),
      t' ∈ applyAttaches att ts → t'.groupId = none →
      t' ∈ ts ∧ ∀ p ∈ att, t'.id ≠ p.2 := by
  intro att
  induction att with
  | nil =>
    intro ts t' h _
    exact ⟨h, fun p hp => absurd hp (List.not_mem_nil p)⟩
  | cons a rest ih =>
    intro ts t' h hu
    have h' : t' ∈ applyAttaches rest (setGroup ts [a.2] a.1) := h
    obtain ⟨hmem, hrest⟩ := ih _ t' h' hu
    obtain ⟨hts, hid⟩ := setGroup_ungrouped hmem hu
    refine ⟨hts, fun p hp => ?_⟩
    rcases List.mem_cons.mp hp with h1 | h1
    · subst h1; simpa using hid
    · exact hrest p h1

lemma applyAttaches_mem_of :
    ∀ (att : List (Nat × Nat)) (ts : List Tab) (t : Tab),
      t ∈ ts → (∀ p ∈ att, t.id ≠ p.2) → t ∈ applyAttaches att ts := by
  intro att
  induction att with
  | nil => intro ts t ht _; exact ht
  | cons a rest ih =>
    intro ts t ht h
    have h1 : t ∈ setGroup ts [a.2] a.1 :=
      setGroup_mem_of_not_target ht (by simpa using h a (List.mem_cons_self _ _))
    exact ih _ t h1 (fun p hp => h p (List.mem_cons_of_mem _ hp))

lemma applyAttaches_map_id :
    ∀ (att : List (Nat × Nat)) (ts : List Tab),
      (applyAttaches att ts).map Tab.id = ts.map Tab.id := by
  intro att
  induction att with
  | nil => intro ts; rfl
  | cons a rest ih =>
    intro ts
    have h : applyAttaches (a :: rest) ts = applyAttaches rest (setGroup ts [a.2] a.1) := rfl
    rw [h, ih, setGroup_map_id]

/-! ### Structural lemmas about `createPass` -/

lemma createPass_cons_ge (ov : String → Option String) (n : String) (tids : List Nat)
    (rest : List (String × List Nat)) (ts : List Tab) (gs : List TabGroup) (nid : Nat)
    (h : 2 ≤ tids.length) :
    createPass ov ((n, tids) :: rest) ts gs nid =
      ⟨(createPass ov rest (setGroup ts tids nid)
          (gs ++ [⟨nid, formatTitle n, resolveColor ov n⟩]) (nid + 1)).tabs,
       (createPass ov rest (setGroup ts tids nid)
          (gs ++ [⟨nid, formatTitle n, resolveColor ov n⟩]) (nid + 1)).groups,
       (createPass ov rest (setGroup ts tids nid)
          (gs ++ [⟨nid, formatTitle n, resolveColor ov n⟩]) (nid + 1)).nextId,
       TabOp.create nid tids :: TabOp.update nid (formatTitle n) (resolveColor ov n) ::
         (createPass ov rest (setGroup ts tids nid)
            (gs ++ [⟨nid, formatTitle n, resolveColor ov n⟩]) (nid + 1)).ops⟩ := by
  simp [createPass, h]

lemma createPass_cons_lt (ov : String → Option String) (n : String) (tids : List Nat)
    (rest : List (String × List Nat)) (ts : List Tab) (gs : List TabGroup) (nid : Nat)
    (h : ¬ 2 ≤ tids.length) :
    createPass ov ((n, tids) :: rest) ts gs nid = createPass ov rest ts gs nid := by
  simp [createPass, h]

lemma createPass_map_id (ov : String → Option String) :
    ∀ (parts : List (String × List Nat)) (ts : List Tab) (gs : List TabGroup) (nid : Nat),
      ((createPass ov parts ts gs nid).tabs).map Tab.id = ts.map Tab.id := by
  intro parts
  induction parts with
  | nil => intro ts gs nid; rfl
  | cons q rest ih =>
    rcases q with ⟨n, tids⟩
    intro ts gs nid
    by_cases h2 : 2 ≤ tids.length
    · rw [createPass_cons_ge ov n tids rest ts gs nid h2]
      have := ih (setGroup ts tids nid)
        (gs ++ [⟨nid, formatTitle n, resolveColor ov n⟩]) (nid + 1)
      rw [this, setGroup_map_id]
    · rw [createPass_cons_lt ov n tids rest ts gs nid h2]
      exact ih ts gs nid

lemma createPass_ungrouped (ov : String → Option String) :
    ∀ (parts : List (String × List Nat)) (ts : List Tab) (gs : List TabGroup) (nid : Nat)
      (t' : Tab),
      t' ∈ (createPass ov parts ts gs nid).tabs → t'.groupId = none →
      t' ∈ ts ∧ ∀ q ∈ parts, 2 ≤ q.2.length → t'.id ∉ q.2 := by
  intro parts
  induction parts with
  | nil =>
    intro ts gs nid t' h _
    exact ⟨h, fun q hq => absurd hq (List.not_mem_nil q)⟩
  | cons q rest ih =>
    rcases q with ⟨n, tids⟩
    intro ts gs nid t' h hu
    by_cases h2 : 2 ≤ tids.length
    · rw [createPass_cons_ge ov n tids rest ts gs nid h2] at h
      obtain ⟨hmem, hrest⟩ := ih _ _ _ t' h hu
      obtain ⟨hts, hid⟩ := setGroup_ungrouped hmem hu
      refine ⟨hts, fun q hq hql => ?_⟩
      rcases List.mem_cons.mp hq with h1 | h1
      · subst h1; exact hid
      · exact hrest q h1 hql
    · rw [createPass_cons_lt ov n tids rest ts gs nid h2] at h
      obtain ⟨hts, hrest⟩ := ih _ _ _ t' h hu
      refine ⟨hts, fun q hq hql => ?_⟩
      rcases List.mem_cons.mp hq with h1 | h1
      · subst h1; exact absurd hql h2
      · exact hrest q h1 hql

lemma createPass_mem_of (ov : String → Option String) :
    ∀ (parts : List (String × List Nat)) (ts : List Tab) (gs : List TabGroup) (nid : Nat)
      (t : Tab),
      t ∈ ts → (∀ q ∈ parts, 2 ≤ q.2.length → t.id ∉ q.2) →
      t ∈ (createPass ov parts ts gs nid).tabs := by
  intro parts
  induction parts with
  | nil => intro ts gs nid t ht _; exact ht
  | cons q rest ih =>
    rcases q with ⟨n, tids⟩
    intro ts gs nid t ht h
    by_cases h2 : 2 ≤ tids.length
    · rw [createPass_cons_ge ov n tids rest ts gs nid h2]
      have h1 : t ∈ setGroup ts tids nid :=
        setGroup_mem_of_not_target ht (h (n, tids) (List.mem_cons_self _ _) h2)
      exact ih _ _ _ t h1 (fun q hq hql => h q (List.mem_cons_of_mem _ hq) hql)
    · rw [createPass_cons_lt ov n tids rest ts gs nid h2]
      exact ih _ _ _ t ht (fun q hq hql => h q (List.mem_cons_of_mem _ hq) hql)

lemma createPass_skip_all (ov : String → Option String) :
    ∀ (parts : List (String × List Nat)) (ts : List Tab) (gs : List TabGroup) (nid : Nat),
      (∀ q ∈ parts, ¬ 2 ≤ q.2.length) →
      createPass ov parts ts gs nid = ⟨ts, gs, nid, []⟩ := by
  intro parts
  induction parts with
  | nil => intro ts gs nid _; rfl
  | cons q rest ih =>
    rcases q with ⟨n, tids⟩
    intro ts gs nid h
    rw [createPass_cons_lt ov n tids rest ts gs nid (h (n, tids) (List.mem_cons_self _ _))]
    exact ih ts gs nid (fun q hq => h q (List.mem_cons_of_mem _ hq))

lemma createPass_create_mem (ov : String → Option String) :
    ∀ (parts : List (String × List Nat)) (ts : List Tab) (gs : List TabGroup) (nid : Nat)
      (gid : Nat) (tids : List Nat),
      TabOp.create gid tids ∈ (createPass ov parts ts gs nid).ops →
      ∃ n, (n, tids) ∈ parts ∧ 2 ≤ tids.length := by
  intro parts
  induction parts with
  | nil => intro ts gs nid gid tids h; cases h
  | cons q rest ih =>
    rcases q with ⟨n, tids0⟩
    intro ts gs nid gid tids h
    by_cases h2 : 2 ≤ tids0.length
    · rw [createPass_cons_ge ov n tids0 rest ts gs nid h2] at h
      rcases List.mem_cons.mp h with h1 | h1
      · injection h1 with e1 e2
        subst e2
        exact ⟨n, List.mem_cons_self _ _, h2⟩
      · rcases List.mem_cons.mp h1 with h3 | h3
        · cases h3
        · obtain ⟨m, hm, hml⟩ := ih _ _ _ gid tids h3
          exact ⟨m, List.mem_cons_of_mem _ hm, hml⟩
    · rw [createPass_cons_lt ov n tids0 rest ts gs nid h2] at h
      obtain ⟨m, hm, hml⟩ := ih _ _ _ gid tids h
      exact ⟨m, List.mem_cons_of_mem _ hm, hml⟩

/-! ### Structural lemmas about `attachPass` and `partitionByName` -/

lemma attachPass_cons_some (egs : List TabGroup) (n : String) (tid : Nat)
    (rest : List (String × Nat)) (g : TabGroup) (h : findMatch egs n = some g) :
    attachPass egs ((n, tid) :: rest) =
      ((g.id, tid) :: (attachPass egs rest).1, (attachPass egs rest).2) := by
  simp [attachPass, h]

lemma attachPass_cons_none (egs : List TabGroup) (n : String) (tid : Nat)
    (rest : List (String × Nat)) (h : findMatch egs n = none) :
    attachPass egs ((n, tid) :: rest) =
      ((attachPass egs rest).1, (n, tid) :: (attachPass egs rest).2) := by
  simp [attachPass, h]

lemma attachPass_att_of_mem (egs : List TabGroup) :
    ∀ (cs : List (String × Nat)) (n : String) (tid : Nat) (g : TabGroup),
      (n, tid) ∈ cs → findMatch egs n = some g →
      (g.id, tid) ∈ (attachPass egs cs).1 := by
  intro cs
  induction cs with
  | nil => intro n tid g h _; cases h
  | cons c rest ih =>
    rcases c with ⟨m, mid⟩
    intro n tid g h hf
    rcases List.mem_cons.mp h with h1 | h1
    · obtain ⟨e1, e2⟩ := Prod.mk.injEq .. ▸ h1
      subst e1; subst e2
      rw [attachPass_cons_some egs n tid rest g hf]
      exact List.mem_cons_self _ _
    · have hsub := ih n tid g h1 hf
      cases hm : findMatch egs m with
      | some g2 =>
        rw [attachPass_cons_some egs m mid rest g2 hm]
        exact List.mem_cons_of_mem _ hsub
      | none =>
        rw [attachPass_cons_none egs m mid rest hm]
        exact hsub

lemma attachPass_rem_of_mem (egs : List TabGroup) :
    ∀ (cs : List (String × Nat)) (n : String) (tid : Nat),
      (n, tid) ∈ cs → findMatch egs n = none →
      (n, tid) ∈ (attachPass egs cs).2 := by
  intro cs
  induction cs with
  | nil => intro n tid h; cases h
  | cons c rest ih =>
    rcases c with ⟨m, mid⟩
    intro n tid h hf
    rcases List.mem_cons.mp h with h1 | h1
    · obtain ⟨e1, e2⟩ := Prod.mk.injEq .. ▸ h1
      subst e1; subst e2
      rw [attachPass_cons_none egs n tid rest hf]
      exact List.mem_cons_self _ _
    · have hsub := ih n tid h1 hf
      cases hm : findMatch egs m with
      | some g2 =>
        rw [attachPass_cons_some egs m mid rest g2 hm]
        exact hsub
      | none =>
        rw [attachPass_cons_none egs m mid rest hm]
        exact List.mem_cons_of_mem _ hsub

lemma attachPass_rem_sub (egs : List TabGroup) :
    ∀ (cs : List (String × Nat)) (n : String) (tid : Nat),
      (n, tid) ∈ (attachPass egs cs).2 → (n, tid) ∈ cs ∧ findMatch egs n = none := by
  intro cs
  induction cs with
  | nil => intro n tid h; cases h
  | cons c rest ih =>
    rcases c with ⟨m, mid⟩
    intro n tid h
    cases hm : findMatch egs m with
    | some g2 =>
      rw [attachPass_cons_some egs m mid rest g2 hm] at h
      obtain ⟨hmem, hf⟩ := ih n tid h
      exact ⟨List.mem_cons_of_mem _ hmem, hf⟩
    | none =>
      rw [attachPass_cons_none egs m mid rest hm] at h
      rcases List.mem_cons.mp h with h1 | h1
      · obtain ⟨e1, e2⟩ := Prod.mk.injEq .. ▸ h1
        subst e1; subst e2
        exact ⟨List.mem_cons_self _ _, hm⟩
      · obtain ⟨hmem, hf⟩ := ih n tid h1
        exact ⟨List.mem_cons_of_mem _ hmem, hf⟩

lemma attachPass_att_sub (egs : List TabGroup) :
    ∀ (cs : List (String × Nat)) (gid tid : Nat),
      (gid, tid) ∈ (attachPass egs cs).1 →
      ∃ n g, (n, tid) ∈ cs ∧ findMatch egs n = some g ∧ gid = g.id := by
  intro cs
  induction cs with
  | nil => intro gid tid h; cases h
  | cons c rest ih =>
    rcases c with ⟨m, mid⟩
    intro gid tid h
    cases hm : findMatch egs m with
    | some g2 =>
      rw [attachPass_cons_some egs m mid rest g2 hm] at h
      rcases List.mem_cons.mp h with h1 | h1
      · obtain ⟨e1, e2⟩ := Prod.mk.injEq .. ▸ h1
        subst e1; subst e2
        exact ⟨m, g2, List.mem_cons_self _ _, hm, rfl⟩
      · obtain ⟨n, g, hmem, hf, hgid⟩ := ih gid tid h1
        exact ⟨n, g, List.mem_cons_of_mem _ hmem, hf, hgid⟩
    | none =>
      rw [attachPass_cons_none egs m mid rest hm] at h
      obtain ⟨n, g, hmem, hf, hgid⟩ := ih gid tid h
      exact ⟨n, g, List.mem_cons_of_mem _ hmem, hf, hgid⟩

lemma attachPass_rem_sublist (egs : List TabGroup) :
    ∀ cs : List (String × Nat), List.Sublist (attachPass egs cs).2 cs := by
  intro cs
  induction cs with
  | nil => exact List.nil_sublist _
  | cons c rest ih =>
    rcases c with ⟨m, mid⟩
    cases hm : findMatch egs m with
    | some g2 =>
      rw [attachPass_cons_some egs m mid rest g2 hm]
      exact List.Sublist.cons _ ih
    | none =>
      rw [attachPass_cons_none egs m mid rest hm]
      exact List.Sublist.cons₂ _ ih

lemma mem_firstOccs : ∀ (l : List String) (x : String), x ∈ firstOccs l ↔ x ∈ l := by
  intro l
  induction l with
  | nil => intro x; simp [firstOccs]
  | cons n rest ih =>
    intro x
    simp only [firstOccs, List.mem_cons, List.mem_filter]
    constructor
    · rintro (h | ⟨h, _⟩)
      · exact Or.inl h
      · exact Or.inr ((ih x).mp h)
    · rintro (h | h)
      · exact Or.inl h
      · by_cases hx : x = n
        · exact Or.inl hx
        · exact Or.inr ⟨(ih x).mpr h, by simpa using hx⟩

lemma mem_partitionByName {rs : List (String × Nat)} {q : String × List Nat}
    (h : q ∈ partitionByName rs) :
    q.2 = (rs.filter (fun p => p.1 == q.1)).map Prod.snd ∧ q.1 ∈ rs.map Prod.fst := by
  obtain ⟨n, hn, heq⟩ := List.mem_map.mp h
  have h1 : q.1 = n := by rw [← heq]
  have h2 : q.2 = (rs.filter (fun p => p.1 == n)).map Prod.snd := by rw [← heq]
  subst h1
  exact ⟨h2, (mem_firstOccs _ _).mp hn⟩

lemma partitionByName_mem_of_name {rs : List (String × Nat)} {n : String}
    (h : n ∈ rs.map Prod.fst) :
    (n, (rs.filter (fun p => p.1 == n)).map Prod.snd) ∈ partitionByName rs :=
  List.mem_map.mpr ⟨n, (mem_firstOccs _ _).mpr h, rfl⟩

lemma partition_entry_mem {rs : List (String × Nat)} {q : String × List Nat}
    (hq : q ∈ partitionByName rs) {i : Nat} (hi : i ∈ q.2) : (q.1, i) ∈ rs := by
  obtain ⟨hq2, _⟩ := mem_partitionByName hq
  rw [hq2] at hi
  obtain ⟨p, hp, hpi⟩ := List.mem_map.mp hi
  obtain ⟨hpmem, hpf⟩ := List.mem_filter.mp hp
  rcases p with ⟨a, b⟩
  have ha : a = q.1 := by simpa using hpf
  have hb : b = i := hpi
  subst ha; subst hb
  exact hpmem

/-! ### Structural lemmas about `moveSingle` and the whole pass -/

lemma moveSingle_fst (ts : List Tab) :
    (moveSingle ts).1 =
      if (ts.filter (fun t => t.groupId == none)).isEmpty then ts
      else ts.filter (fun t => !(t.groupId == none)) ++ ts.filter (fun t => t.groupId == none) := by
  by_cases h : (ts.filter (fun t => t.groupId == none)).isEmpty <;> simp [moveSingle, h]

lemma moveSingle_perm (ts : List Tab) : List.Perm (moveSingle ts).1 ts := by
  rw [moveSingle_fst]
  by_cases h : (ts.filter (fun t => t.groupId == none)).isEmpty
  · rw [if_pos h]
  · rw [if_neg h]
    exact filter_split_perm (fun t => t.groupId == none) ts

lemma moveSingle_mem {ts : List Tab} {t : Tab} : t ∈ (moveSingle ts).1 ↔ t ∈ ts :=
  (moveSingle_perm ts).mem_iff

lemma groupTabsByDomain_le_one {maps : List (String × String)} {ov : String → Option String}
    {s : WinState} (h : s.tabs.length ≤ 1) :
    groupTabsByDomain maps ov s = (s, []) := by
  simp [groupTabsByDomain, h]

lemma groupTabsByDomain_main {maps : List (String × String)} {ov : String → Option String}
    {s : WinState} (h : ¬ s.tabs.length ≤ 1) :
    groupTabsByDomain maps ov s =
      (⟨(moveSingle (createdOf maps ov s).tabs).1, (createdOf maps ov s).groups,
        (createdOf maps ov s).nextId⟩,
       (attOf maps s).map (fun p => TabOp.attach p.1 [p.2]) ++ (createdOf maps ov s).ops ++
         (moveSingle (createdOf maps ov s).tabs).2) := by
  simp [groupTabsByDomain, h]

lemma run_tabs_map_id_perm (maps : List (String × String)) (ov : String → Option String)
    (s : WinState) :
    List.Perm (((groupTabsByDomain maps ov s).1.tabs).map Tab.id) (s.tabs.map Tab.id) := by
  by_cases h : s.tabs.length ≤ 1
  · rw [groupTabsByDomain_le_one h]
  · rw [groupTabsByDomain_main h]
    have h1 := (moveSingle_perm (createdOf maps ov s).tabs).map Tab.id
    have h2 : ((createdOf maps ov s).tabs).map Tab.id = s.tabs.map Tab.id := by
      unfold createdOf tabs1Of
      rw [createPass_map_id, applyAttaches_map_id]
    rw [h2] at h1
    exact h1

lemma run_tabs_length (maps : List (String × String)) (ov : String → Option String)
    (s : WinState) :
    (groupTabsByDomain maps ov s).1.tabs.length = s.tabs.length := by
  have := (run_tabs_map_id_perm maps ov s).length_eq
  simpa using this

lemma run_nodup_ids {maps : List (String × String)} {ov : String → Option String}
    {s : WinState} (h : (s.tabs.map Tab.id).Nodup) :
    ((groupTabsByDomain maps ov s).1.tabs.map Tab.id).Nodup :=
  ((run_tabs_map_id_perm maps ov s).nodup_iff).mpr h

lemma classify_some_shape {maps : List (String × String)} {t : Tab} {n : String} {i : Nat}
    (h : classify maps t = some (n, i)) : i = t.id ∧ t.groupId = none := by
  unfold classify at h
  by_cases hp : passesFilter t = true
  · rw [if_pos hp] at h
    have hgid : t.groupId = none := by
      unfold passesFilter at hp
      simp only [Bool.and_eq_true, beq_iff_eq] at hp
      exact hp.2
    cases hd : getDomain (t.url.getD "") with
    | none => rw [hd] at h; cases h
    | some d =>
      rw [hd] at h
      have := Option.some_inj.mp h
      exact ⟨(congrArg Prod.snd this).symm, hgid⟩
  · rw [if_neg hp] at h
    cases h

lemma cands_mem {maps : List (String × String)} {s : WinState} {n : String} {i : Nat}
    (h : (n, i) ∈ candidatesOf maps s) :
    ∃ t ∈ s.tabs, classify maps t = some (n, i) ∧ t.id = i ∧ t.groupId = none := by
  obtain ⟨t, ht, hc⟩ := List.mem_filterMap.mp h
  obtain ⟨hi, hg⟩ := classify_some_shape hc
  exact ⟨t, ht, hc, hi.symm, hg⟩

lemma cands_unique_name {maps : List (String × String)} {s : WinState}
    (hids : (s.tabs.map Tab.id).Nodup) {n m : String} {i : Nat}
    (h1 : (n, i) ∈ candidatesOf maps s) (h2 : (m, i) ∈ candidatesOf maps s) : n = m := by
  obtain ⟨t1, ht1, hc1, hi1, _⟩ := cands_mem h1
  obtain ⟨t2, ht2, hc2, hi2, _⟩ := cands_mem h2
  have heq : t1 = t2 :=
    List.inj_on_of_nodup_map hids ht1 ht2 (by rw [hi1, hi2])
  rw [heq] at hc1
  rw [hc1] at hc2
  have := Option.some_inj.mp hc2
  exact congrArg Prod.fst this

lemma not_mem_cands_of_classify_none {maps : List (String × String)} {s : WinState}
    (hids : (s.tabs.map Tab.id).Nodup) {t : Tab} (ht : t ∈ s.tabs)
    (hc : classify maps t = none) : ∀ n, (n, t.id) ∉ candidatesOf maps s := by
  intro n hmem
  obtain ⟨t2, ht2, hc2, hi2, _⟩ := cands_mem hmem
  have heq : t2 = t := List.inj_on_of_nodup_map hids ht2 ht hi2
  rw [heq, hc] at hc2
  cases hc2

/-- A tab that is still ungrouped after a (non-early-exited) pass was
already present and ungrouped before it, was never attached by the attach
loop, and belongs to no partition of two or more tabs. -/
lemma run_ungrouped_back {maps : List (String × String)} {ov : String → Option String}
    {s : WinState} (hl : ¬ s.tabs.length ≤ 1) {t : Tab}
    (ht : t ∈ (groupTabsByDomain maps ov s).1.tabs) (hu : t.groupId = none) :
    t ∈ s.tabs ∧ (∀ p ∈ attOf maps s, t.id ≠ p.2) ∧
      (∀ q ∈ partsOf maps s, 2 ≤ q.2.length → t.id ∉ q.2) := by
  rw [groupTabsByDomain_main hl] at ht
  have ht1 : t ∈ (createdOf maps ov s).tabs := moveSingle_mem.mp ht
  have ht1' : t ∈ (createPass ov (partsOf maps s) (applyAttaches (attOf maps s) s.tabs)
      s.groups s.nextId).tabs := ht1
  obtain ⟨ht2, hparts⟩ := createPass_ungrouped ov _ _ _ _ t ht1' hu
  obtain ⟨ht3, hatt⟩ := applyAttaches_ungrouped _ _ t ht2 hu
  exact ⟨ht3, hatt, hparts⟩

lemma moveSingle_ops_move {ts : List Tab} {op : TabOp} (h : op ∈ (moveSingle ts).2) :
    ∃ i k, op = TabOp.move i k := by
  unfold moveSingle at h
  by_cases he : (ts.filter (fun t => t.groupId == none)).isEmpty
  · simp [he] at h
  · simp only [he, if_false, Bool.false_eq_true] at h
    obtain ⟨t, _, heq⟩ := List.mem_map.mp h
    exact ⟨t.id, ts.length - 1, heq.symm⟩

/-! ### Lemmas about `removeEmptyGroups` -/

lemma removeEmptyGroups_tabs (s : WinState) :
    (removeEmptyGroups s).1.tabs =
      s.tabs.map (fun t => if t.id ∈ dissolvedTabIds s then { t with groupId := none } else t) :=
  rfl

lemma removeEmptyGroups_groups (s : WinState) :
    (removeEmptyGroups s).1.groups =
      s.groups.filter
        (fun g => ((removeEmptyGroups s).1.tabs).any (fun t => t.groupId == some g.id)) :=
  rfl

/-- All tabs of an undersized group are ungrouped by the cleanup. -/
lemma dissolved_no_tab {s : WinState} {g : TabGroup} (hg : g ∈ s.groups)
    (hlt : tabCount s.tabs g.id < 2) :
    ∀ t' ∈ (removeEmptyGroups s).1.tabs, t'.groupId ≠ some g.id := by
  intro t' ht' hgid
  rw [removeEmptyGroups_tabs] at ht'
  obtain ⟨t, ht, heq⟩ := List.mem_map.mp ht'
  by_cases hid : t.id ∈ dissolvedTabIds s
  · rw [if_pos hid] at heq
    rw [← heq] at hgid
    simp at hgid
  · rw [if_neg hid] at heq
    subst heq
    apply hid
    unfold dissolvedTabIds
    apply List.mem_map.mpr
    refine ⟨t, ?_, rfl⟩
    apply List.mem_filter.mpr
    refine ⟨ht, ?_⟩
    apply List.any_eq_true.mpr
    refine ⟨g, ?_, ?_⟩
    · unfold undersized
      exact List.mem_filter.mpr ⟨hg, decide_eq_true hlt⟩
    · rw [hgid]
      simp

/-- An undersized group is gone after the cleanup. -/
lemma dissolved_not_in_groups {s : WinState} {g : TabGroup} (hg : g ∈ s.groups)
    (hlt : tabCount s.tabs g.id < 2) :
    g ∉ (removeEmptyGroups s).1.groups := by
  intro hmem
  rw [removeEmptyGroups_groups] at hmem
  obtain ⟨_, hany⟩ := List.mem_filter.mp hmem
  obtain ⟨t', ht', hbeq⟩ := List.any_eq_true.mp hany
  exact dissolved_no_tab hg hlt t' ht' (by simpa using hbeq)

/-- A group with at least two tabs keeps them all through the cleanup. -/
lemma kept_group_count {s : WinState} (htid : (s.tabs.map Tab.id).Nodup)
    (hgid : (s.groups.map TabGroup.id).Nodup) {g : TabGroup} (hg : g ∈ s.groups)
    (hge : 2 ≤ tabCount s.tabs g.id) :
    2 ≤ tabCount (removeEmptyGroups s).1.tabs g.id := by
  rw [removeEmptyGroups_tabs]
  unfold tabCount
  have hpoint : ∀ t ∈ s.tabs, (t.groupId == some g.id) = true →
      (((fun t => if t.id ∈ dissolvedTabIds s then { t with groupId := none } else t) t).groupId ==
        some g.id) = true := by
    intro t ht hq
    have htg : t.groupId = some g.id := by simpa using hq
    have hnotdis : t.id ∉ dissolvedTabIds s := by
      intro hdis
      unfold dissolvedTabIds at hdis
      obtain ⟨t2, ht2, hid2⟩ := List.mem_map.mp hdis
      obtain ⟨ht2mem, hany2⟩ := List.mem_filter.mp ht2
      have ht2t : t2 = t := List.inj_on_of_nodup_map htid ht2mem ht hid2
      subst ht2t
      obtain ⟨g2, hg2, hbeq2⟩ := List.any_eq_true.mp hany2
      have hg2mem : g2 ∈ s.groups ∧ decide (tabCount s.tabs g2.id < 2) = true :=
        List.mem_filter.mp (by unfold undersized at hg2; exact hg2)
      have hg2id : g2.id = g.id := by
        rw [htg] at hbeq2
        simpa using hbeq2
      have hg2g : g2 = g := List.inj_on_of_nodup_map hgid hg2mem.1 hg hg2id
      have hlt : tabCount s.tabs g2.id < 2 := of_decide_eq_true hg2mem.2
      rw [hg2g] at hlt
      omega
    show ((if t.id ∈ dissolvedTabIds s then { t with groupId := none } else t).groupId ==
      some g.id) = true
    rw [if_neg hnotdis]
    exact hq
  calc 2 ≤ (s.tabs.filter (fun t => t.groupId == some g.id)).length := hge
    _ ≤ _ := filter_map_count_ge _ _ s.tabs hpoint

/-- Every group surviving the cleanup has at least two tabs. -/
lemma kept_groups_ge_two {s : WinState} (htid : (s.tabs.map Tab.id).Nodup)
    (hgid : (s.groups.map TabGroup.id).Nodup) :
    ∀ g ∈ (removeEmptyGroups s).1.groups,
      2 ≤ tabCount (removeEmptyGroups s).1.tabs g.id := by
  intro g hmem
  have hg : g ∈ s.groups := by
    rw [removeEmptyGroups_groups] at hmem
    exact (List.mem_filter.mp hmem).1
  by_cases hge : 2 ≤ tabCount s.tabs g.id
  · exact kept_group_count htid hgid hg hge
  · exact absurd hmem (dissolved_not_in_groups hg (by omega))

/-! ### Theorems for candidate classification (C4) -/

/-- C4 counterexample: the revision at lines 353-409 does not exclude
pinned tabs - its filter (line 367) accepts a pinned, ungrouped tab with a
URL, and the pass places that pinned tab into a newly created group. -/
theorem c4_counterexample :
    passesFilterV1 ⟨1, some "https://a.com/", true, none⟩ = true ∧
    (⟨1, some "https://a.com/", true, some 50⟩ : Tab) ∈
      (groupTabsByDomainV1 noMaps noColors sPinnedPair).1.tabs := by
  refine ⟨by decide, by decide⟩

/-- C4 (amended): in the revision at lines 762-840, the candidate filter
accepts exactly the tabs with a (truthy) URL that are not pinned and are
ungrouped; every excluded tab - pinned, URL-less, or already grouped -
keeps its group membership unchanged across the pass, so it is never placed
into a group.  In the earlier revision at lines 353-409, however, the
filter does not exclude pinned tabs, and a pinned ungrouped tab with a URL
is classified and can be grouped (see the counterexample). -/
theorem c4_classification_filter (maps : List (String × String)) (ov : String → Option String)
    (s : WinState) (hids : (s.tabs.map Tab.id).Nodup) :
    (∀ t : Tab, passesFilter t = true ↔
      (t.url.getD "" ≠ "" ∧ t.pinned = false ∧ t.groupId = none)) ∧
    (∀ t : Tab, t.pinned = true → classify maps t = none) ∧
    (∀ t ∈ s.tabs, classify maps t = none →
      ∃ t' ∈ (groupTabsByDomain maps ov s).1.tabs, t'.id = t.id ∧ t'.groupId = t.groupId) := by
  have hfil : ∀ t : Tab, passesFilter t = true ↔
      (t.url.getD "" ≠ "" ∧ t.pinned = false ∧ t.groupId = none) := by
    intro t
    unfold passesFilter
    simp [Bool.and_eq_true, bne_iff_ne, Bool.not_eq_true', beq_iff_eq, and_assoc]
  have hcls : ∀ t : Tab, t.pinned = true → classify maps t = none := by
    intro t hp
    unfold classify
    rw [if_neg]
    intro hpf
    have h2 := ((hfil t).mp hpf).2.1
    rw [hp] at h2
    simp at h2
  refine ⟨hfil, hcls, ?_⟩
  intro t ht hc
  by_cases hl : s.tabs.length ≤ 1
  · rw [groupTabsByDomain_le_one hl]
    exact ⟨t, ht, rfl, rfl⟩
  · have hnc : ∀ n, (n, t.id) ∉ candidatesOf maps s :=
      not_mem_cands_of_classify_none hids ht hc
    rw [groupTabsByDomain_main hl]
    refine ⟨t, ?_, rfl, rfl⟩
    refine moveSingle_mem.mpr ?_
    show t ∈ (createPass ov (partsOf maps s) (applyAttaches (attOf maps s) s.tabs)
      s.groups s.nextId).tabs
    apply createPass_mem_of
    · apply applyAttaches_mem_of _ _ _ ht
      intro p hp
      rcases p with ⟨gid, tid⟩
      intro hEq
      unfold attOf at hp
      obtain ⟨n, g, hmem, _, _⟩ := attachPass_att_sub s.groups _ gid tid hp
      exact hnc n (by rw [hEq]; exact hmem)
    · intro q hq hql hiq
      have hrem : (q.1, t.id) ∈ remOf maps s := by
        unfold partsOf at hq
        exact partition_entry_mem hq hiq
      obtain ⟨hqc, _⟩ := attachPass_rem_sub s.groups (candidatesOf maps s) q.1 t.id
        (by unfold remOf at hrem; exact hrem)
      exact hnc q.1 hqc

/-- C4 witness: the filter characterization at a concrete pinned tab, and
the unchanged-membership clause at a concrete state. -/
theorem c4_witness :
    (sTwoSingles.tabs.map Tab.id).Nodup ∧
    (∀ t : Tab, t.pinned = true → classify noMaps t = none) ∧
    (∀ t ∈ sTwoSingles.tabs, classify noMaps t = none →
      ∃ t' ∈ (groupTabsByDomain noMaps noColors sTwoSingles).1.tabs,
        t'.id = t.id ∧ t'.groupId = t.groupId) :=
  ⟨by decide,
    (c4_classification_filter noMaps noColors sTwoSingles (by decide)).2.1,
    (c4_classification_filter noMaps noColors sTwoSingles (by decide)).2.2⟩

/-! ### Theorems for attach-to-existing-groups (C5) -/

set_option maxRecDepth 16384 in
/-- C5 counterexample: the revision at lines 353-409 matches existing
groups case-SENSITIVELY (`group.title === groupName`, line 388).  With an
existing group titled `Github` and two classified tabs whose target group
name is `github` (a case-insensitive match), that pass issues no attach
operation and creates a new group for the name instead. -/
theorem c5_counterexample :
    lowerEq "Github" "github" = true ∧
    (groupTabsByDomainV1 noMaps noColors sGithubPair).2 =
      [TabOp.create 50 [1, 2], TabOp.update 50 "github" "grey"] := by
  refine ⟨by decide, by decide⟩

/-- C5 (amended): in the revision at lines 762-840, every classified tab
whose target group name case-insensitively matches the title of an
already-existing group is attached to that group, and no partition (hence
no new group) is formed for any such group name in that pass.  The earlier
revision at lines 353-409 matches case-sensitively and attaches only whole
partitions of at least two tabs, so a case-insensitive match there yields a
duplicate group instead (see the counterexample). -/
theorem c5_attach_to_existing (maps : List (String × String)) (ov : String → Option String)
    (s : WinState) (h2 : 2 ≤ s.tabs.length) :
    (∀ n tid g, (n, tid) ∈ candidatesOf maps s → findMatch s.groups n = some g →
      TabOp.attach g.id [tid] ∈ (groupTabsByDomain maps ov s).2) ∧
    (∀ q ∈ partsOf maps s, findMatch s.groups q.1 = none) ∧
    (∀ n g, findMatch s.groups n = some g → n ∉ (partsOf maps s).map Prod.fst) := by
  have hl : ¬ s.tabs.length ≤ 1 := by omega
  have hparts : ∀ q ∈ partsOf maps s, findMatch s.groups q.1 = none := by
    intro q hq
    have hq' : q ∈ partitionByName (remOf maps s) := hq
    obtain ⟨_, hname⟩ := mem_partitionByName hq'
    obtain ⟨p, hp, hpf⟩ := List.mem_map.mp hname
    rcases p with ⟨m, mid⟩
    obtain ⟨_, hfm⟩ := attachPass_rem_sub s.groups (candidatesOf maps s) m mid
      (by unfold remOf at hp; exact hp)
    have hm : m = q.1 := hpf
    rw [← hm]
    exact hfm
  refine ⟨?_, hparts, ?_⟩
  · intro n tid g hc hf
    rw [groupTabsByDomain_main hl]
    refine List.mem_append_left _ (List.mem_append_left _ (List.mem_map.mpr ⟨(g.id, tid), ?_, rfl⟩))
    unfold attOf
    exact attachPass_att_of_mem s.groups _ n tid g hc hf
  · intro n g hf hmem
    obtain ⟨q, hq, hqf⟩ := List.mem_map.mp hmem
    have hnone := hparts q hq
    rw [hqf] at hnone
    rw [hnone] at hf
    cases hf

/-- C5 witness: at the concrete github state, the classified tabs match the
existing `Github` group case-insensitively and the pass attaches them. -/
theorem c5_witness :
    2 ≤ sGithubPair.tabs.length ∧
    findMatch sGithubPair.groups "github" = some ⟨10, "Github", "blue"⟩ ∧
    ("github", 1) ∈ candidatesOf noMaps sGithubPair ∧
    TabOp.attach 10 [1] ∈ (groupTabsByDomain noMaps noColors sGithubPair).2 :=
  ⟨by decide, by decide, by decide,
    (c5_attach_to_existing noMaps noColors sGithubPair (by decide)).1
      "github" 1 ⟨10, "Github", "blue"⟩ (by decide) (by decide)⟩

/-! ### Theorems for the minimum-group-size invariant (C2) -/

/-- C2 (confirmed): the grouping pass only issues a group creation for a
partition with at least two candidate tabs; a partition with exactly one
tab leaves its tab ungrouped at the end of the pass; and after
`removeEmptyGroups` completes, every group remaining in the window has at
least two tabs, while every group that had fewer than two tabs is gone and
none of the resulting tabs still points at it. -/
theorem c2_min_group_size (maps : List (String × String)) (ov : String → Option String)
    (s : WinState) (htid : (s.tabs.map Tab.id).Nodup)
    (hgid : (s.groups.map TabGroup.id).Nodup) :
    (∀ gid tids, TabOp.create gid tids ∈ (groupTabsByDomain maps ov s).2 → 2 ≤ tids.length) ∧
    (2 ≤ s.tabs.length → ∀ q ∈ partsOf maps s, q.2.length = 1 → ∀ i ∈ q.2,
      ∃ t' ∈ (groupTabsByDomain maps ov s).1.tabs, t'.id = i ∧ t'.groupId = none) ∧
    (∀ g ∈ (removeEmptyGroups s).1.groups,
      2 ≤ tabCount (removeEmptyGroups s).1.tabs g.id) ∧
    (∀ g ∈ s.groups, tabCount s.tabs g.id < 2 →
      g ∉ (removeEmptyGroups s).1.groups ∧
      ∀ t' ∈ (removeEmptyGroups s).1.tabs, t'.groupId ≠ some g.id) := by
  refine ⟨?_, ?_, kept_groups_ge_two htid hgid, ?_⟩
  · intro gid tids h
    by_cases hl : s.tabs.length ≤ 1
    · rw [groupTabsByDomain_le_one hl] at h
      cases h
    · rw [groupTabsByDomain_main hl] at h
      rcases List.mem_append.mp h with h1 | h1
      · rcases List.mem_append.mp h1 with h2 | h2
        · obtain ⟨p, _, hp⟩ := List.mem_map.mp h2
          cases hp
        · have h2' : TabOp.create gid tids ∈
              (createPass ov (partsOf maps s) (tabs1Of maps s) s.groups s.nextId).ops := h2
          obtain ⟨n, _, hnl⟩ := createPass_create_mem ov _ _ _ _ gid tids h2'
          exact hnl
      · obtain ⟨i, k, hik⟩ := moveSingle_ops_move h1
        cases hik
  · intro hlen q hq hq1 i hi
    have hl : ¬ s.tabs.length ≤ 1 := by omega
    have hrem : (q.1, i) ∈ remOf maps s := by
      have hq' : q ∈ partitionByName (remOf maps s) := hq
      exact partition_entry_mem hq' hi
    obtain ⟨hcand, hfm⟩ := attachPass_rem_sub s.groups (candidatesOf maps s) q.1 i
      (by unfold remOf at hrem; exact hrem)
    obtain ⟨t, ht, hct, hti, htg⟩ := cands_mem hcand
    rw [groupTabsByDomain_main hl]
    refine ⟨t, ?_, hti, htg⟩
    refine moveSingle_mem.mpr ?_
    show t ∈ (createPass ov (partsOf maps s) (applyAttaches (attOf maps s) s.tabs)
      s.groups s.nextId).tabs
    apply createPass_mem_of
    · apply applyAttaches_mem_of _ _ _ ht
      intro p hp
      rcases p with ⟨gid, tid⟩
      intro hEq
      unfold attOf at hp
      obtain ⟨m, g, hmem, hf, _⟩ := attachPass_att_sub s.groups _ gid tid hp
      have hmi : (m, i) ∈ candidatesOf maps s := by
        have hEq' : t.id = tid := hEq
        rw [← hti, hEq']
        exact hmem
      have hm : m = q.1 := cands_unique_name htid hmi hcand
      rw [hm, hfm] at hf
      cases hf
    · intro q' hq' hql' hiq'
      have hrem' : (q'.1, t.id) ∈ remOf maps s := by
        have hq'' : q' ∈ partitionByName (remOf maps s) := hq'
        exact partition_entry_mem hq'' hiq'
      obtain ⟨hcand', _⟩ := attachPass_rem_sub s.groups (candidatesOf maps s) q'.1 t.id
        (by unfold remOf at hrem'; exact hrem')
      have hcand'' : (q'.1, i) ∈ candidatesOf maps s := by
        rw [← hti]
        exact hcand'
      have hname : q'.1 = q.1 := cands_unique_name htid hcand'' hcand
      have hq2' := (mem_partitionByName (show q' ∈ partitionByName (remOf maps s) from hq')).1
      have hq2 := (mem_partitionByName (show q ∈ partitionByName (remOf maps s) from hq)).1
      have heq2 : q'.2 = q.2 := by rw [hq2', hq2, hname]
      rw [heq2] at hql'
      omega
  · intro g hg hlt
    exact ⟨dissolved_not_in_groups hg hlt, dissolved_no_tab hg hlt⟩

/-- C2 witness: at the concrete cleanup state, the one-tab group 7 is
dissolved and its tab ungrouped while the two-tab group 8 keeps both tabs;
at the two-singles state no creation is issued and both singleton-partition
tabs stay ungrouped. -/
theorem c2_witness :
    (sCleanup.tabs.map Tab.id).Nodup ∧ (sCleanup.groups.map TabGroup.id).Nodup ∧
    (∀ g ∈ (removeEmptyGroups sCleanup).1.groups,
      2 ≤ tabCount (removeEmptyGroups sCleanup).1.tabs g.id) ∧
    (∀ g ∈ sCleanup.groups, tabCount sCleanup.tabs g.id < 2 →
      g ∉ (removeEmptyGroups sCleanup).1.groups ∧
      ∀ t' ∈ (removeEmptyGroups sCleanup).1.tabs, t'.groupId ≠ some g.id) :=
  ⟨by decide, by decide,
    (c2_min_group_size noMaps noColors sCleanup (by decide) (by decide)).2.2.1,
    (c2_min_group_size noMaps noColors sCleanup (by decide) (by decide)).2.2.2⟩

/-! ### Theorems for reconciliation idempotence (C1) -/

set_option maxRecDepth 16384 in
/-- C1 counterexample: with two ungrouped tabs on different domains the
first pass forms no group and moves both tabs to the end; an immediately
repeated pass re-issues one `chrome.tabs.move` per still-ungrouped tab, so
the second run does NOT issue zero tab-platform operations. -/
theorem c1_counterexample :
    (groupTabsByDomain noMaps noColors
      (groupTabsByDomain noMaps noColors sTwoSingles).1).2 =
      [TabOp.move 1 1, TabOp.move 2 1] ∧
    (groupTabsByDomain noMaps noColors
      (groupTabsByDomain noMaps noColors sTwoSingles).1).2 ≠ [] := by
  refine ⟨by decide, by decide⟩

/-- C1 (amended): with no intervening tab or mapping changes, a second run
of `groupTabsByDomain` immediately after a completed first run issues no
group-creation and no group-update operations, and its final group-set
equals the first run's.  The second run is NOT operation-free in general:
`moveSingleTabs` unconditionally re-issues one move per still-ungrouped tab
(see the counterexample), and a leftover singleton may still be attached to
a group the first run created.  The creation-freedom holds because any two
still-ungrouped candidates with the same target group name would already
have been attached or grouped by the first run, so the second run never
forms a partition of two or more tabs. -/
theorem c1_second_pass (maps : List (String × String)) (ov : String → Option String)
    (s0 : WinState) (hids : (s0.tabs.map Tab.id).Nodup) :
    (groupTabsByDomain maps ov (groupTabsByDomain maps ov s0).1).1.groups =
      (groupTabsByDomain maps ov s0).1.groups ∧
    ∀ op ∈ (groupTabsByDomain maps ov (groupTabsByDomain maps ov s0).1).2,
      (∀ gid tids, op ≠ TabOp.create gid tids) ∧
      (∀ gid ti co, op ≠ TabOp.update gid ti co) := by
  by_cases hl : s0.tabs.length ≤ 1
  · have h1 := @groupTabsByDomain_le_one maps ov s0 hl
    simp [h1]
  · have hlen1 : (groupTabsByDomain maps ov s0).1.tabs.length = s0.tabs.length :=
      run_tabs_length maps ov s0
    have hl1 : ¬ (groupTabsByDomain maps ov s0).1.tabs.length ≤ 1 := by omega
    have hids1 : ((groupTabsByDomain maps ov s0).1.tabs.map Tab.id).Nodup :=
      run_nodup_ids hids
    have hkey : ∀ q ∈ partsOf maps (groupTabsByDomain maps ov s0).1, ¬ 2 ≤ q.2.length := by
      intro q hq h2q
      obtain ⟨hq2, _⟩ := mem_partitionByName
        (show q ∈ partitionByName (remOf maps (groupTabsByDomain maps ov s0).1) from hq)
      rw [hq2, List.length_map] at h2q
      have hsub : List.Sublist
          ((remOf maps (groupTabsByDomain maps ov s0).1).filter (fun p => p.1 == q.1))
          ((candidatesOf maps (groupTabsByDomain maps ov s0).1).filter (fun p => p.1 == q.1)) :=
        (attachPass_rem_sublist (groupTabsByDomain maps ov s0).1.groups
          (candidatesOf maps (groupTabsByDomain maps ov s0).1)).filter _
      have h2c : 2 ≤ ((candidatesOf maps (groupTabsByDomain maps ov s0).1).filter
          (fun p => p.1 == q.1)).length :=
        le_trans h2q hsub.length_le
      obtain ⟨x, y, hxy, hx, hy⟩ := filter_two_sublist _ _ h2c
      obtain ⟨a, b, hab, hca, hcb⟩ :=
        filterMap_pair_sublist (classify maps) (groupTabsByDomain maps ov s0).1.tabs x y hxy
      rcases x with ⟨nx, ix⟩
      rcases y with ⟨ny, iy⟩
      have hnx : nx = q.1 := by simpa using hx
      have hny : ny = q.1 := by simpa using hy
      obtain ⟨hixa, hga⟩ := classify_some_shape hca
      obtain ⟨hiyb, hgb⟩ := classify_some_shape hcb
      have hmem_a : a ∈ (groupTabsByDomain maps ov s0).1.tabs :=
        hab.subset (List.mem_cons_self _ _)
      have hmem_b : b ∈ (groupTabsByDomain maps ov s0).1.tabs :=
        hab.subset (List.mem_cons_of_mem _ (List.mem_cons_self _ _))
      have hidab : a.id ≠ b.id := by
        intro hEq
        have hsubids : List.Sublist [a.id, b.id]
            ((groupTabsByDomain maps ov s0).1.tabs.map Tab.id) := by
          have := hab.map Tab.id
          simpa using this
        have hnd := hids1.sublist hsubids
        rw [hEq] at hnd
        simp at hnd
      obtain ⟨ha0, hattA, hpartsA⟩ := run_ungrouped_back hl hmem_a hga
      obtain ⟨hb0, _, _⟩ := run_ungrouped_back hl hmem_b hgb
      have hca' : classify maps a = some (q.1, a.id) := by rw [← hnx, ← hixa]; exact hca
      have hcb' : classify maps b = some (q.1, b.id) := by rw [← hny, ← hiyb]; exact hcb
      have hcA : (q.1, a.id) ∈ candidatesOf maps s0 := List.mem_filterMap.mpr ⟨a, ha0, hca'⟩
      have hcB : (q.1, b.id) ∈ candidatesOf maps s0 := List.mem_filterMap.mpr ⟨b, hb0, hcb'⟩
      cases hfm : findMatch s0.groups q.1 with
      | some g =>
        have hatt := attachPass_att_of_mem s0.groups _ q.1 a.id g hcA hfm
        exact hattA (g.id, a.id) (by unfold attOf; exact hatt) rfl
      | none =>
        have hremA := attachPass_rem_of_mem s0.groups _ q.1 a.id hcA hfm
        have hremB := attachPass_rem_of_mem s0.groups _ q.1 b.id hcB hfm
        have hnmem : q.1 ∈ (remOf maps s0).map Prod.fst :=
          List.mem_map.mpr ⟨(q.1, a.id), hremA, rfl⟩
        have hqp := partitionByName_mem_of_name hnmem
        have hmemA2 : a.id ∈ ((remOf maps s0).filter (fun p => p.1 == q.1)).map Prod.snd :=
          List.mem_map.mpr ⟨(q.1, a.id), List.mem_filter.mpr ⟨hremA, by simp⟩, rfl⟩
        have hmemB2 : b.id ∈ ((remOf maps s0).filter (fun p => p.1 == q.1)).map Prod.snd :=
          List.mem_map.mpr ⟨(q.1, b.id), List.mem_filter.mpr ⟨hremB, by simp⟩, rfl⟩
        have h2l : 2 ≤ (((remOf maps s0).filter (fun p => p.1 == q.1)).map Prod.snd).length :=
          two_le_length_of_mem_ne hmemA2 hmemB2 hidab
        exact hpartsA _ (by unfold partsOf; exact hqp) h2l hmemA2
    have hskip := createPass_skip_all ov (partsOf maps (groupTabsByDomain maps ov s0).1)
      (tabs1Of maps (groupTabsByDomain maps ov s0).1)
      (groupTabsByDomain maps ov s0).1.groups
      (groupTabsByDomain maps ov s0).1.nextId hkey
    constructor
    · rw [groupTabsByDomain_main hl1]
      show (createdOf maps ov (groupTabsByDomain maps ov s0).1).groups =
        (groupTabsByDomain maps ov s0).1.groups
      unfold createdOf
      rw [hskip]
    · intro op hop
      rw [groupTabsByDomain_main hl1] at hop
      rcases List.mem_append.mp hop with h1 | h1
      · rcases List.mem_append.mp h1 with h2 | h2
        · obtain ⟨p, _, hp⟩ := List.mem_map.mp h2
          refine ⟨fun gid tids hEq => ?_, fun gid ti co hEq => ?_⟩ <;>
            (rw [← hp] at hEq; cases hEq)
        · have h2' : op ∈ (createPass ov (partsOf maps (groupTabsByDomain maps ov s0).1)
              (tabs1Of maps (groupTabsByDomain maps ov s0).1)
              (groupTabsByDomain maps ov s0).1.groups
              (groupTabsByDomain maps ov s0).1.nextId).ops := h2
          rw [hskip] at h2'
          cases h2'
      · obtain ⟨i, k, hik⟩ := moveSingle_ops_move h1
        refine ⟨fun gid tids hEq => ?_, fun gid ti co hEq => ?_⟩ <;>
          (rw [hik] at hEq; cases hEq)

/-- C1 witness: at the two-singles state (distinct tab ids), the second
run's group-set equals the first run's and its operations include no
creation and no update. -/
theorem c1_witness :
    (sTwoSingles.tabs.map Tab.id).Nodup ∧
    (groupTabsByDomain noMaps noColors (groupTabsByDomain noMaps noColors sTwoSingles).1).1.groups =
      (groupTabsByDomain noMaps noColors sTwoSingles).1.groups ∧
    (∀ op ∈ (groupTabsByDomain noMaps noColors
        (groupTabsByDomain noMaps noColors sTwoSingles).1).2,
      (∀ gid tids, op ≠ TabOp.create gid tids) ∧
      (∀ gid ti co, op ≠ TabOp.update gid ti co)) :=
  ⟨by decide, (c1_second_pass noMaps noColors sTwoSingles (by decide)).1,
    (c1_second_pass noMaps noColors sTwoSingles (by decide)).2⟩

end TabGrouper
